import Mathlib

/-!
Verification of the regia record store (src/db.rs, src/todo.rs, src/note.rs).

Shallow embedding conventions, fixed once for the whole file:

* Uuid (a 128-bit identifier, compared bytewise, i.e. numerically on the
  big-endian value) is embedded as a Nat; Rust's type system guarantees
  values are below 2^128, which reappears here as a well-formedness bound.
* Rust String is embedded by its UTF-8 byte content as a List Nat (each
  byte below 256).  String equality in Rust is byte equality, and the
  msgpack codec reads and writes the raw bytes, so nothing about the
  claims depends on the characters themselves.
* chrono DateTime of Utc is embedded as an Int timestamp.  chrono's serde
  implementation writes the instant as an RFC3339 string and parsing the
  string restores the instant exactly, to its original precision; the
  concrete string grammar is abstracted to an injective decimal rendering
  of the timestamp (tsBytes below), which has the same exact round-trip
  contract and the same msgpack framing (a str value).
* HashSet of Uuid is embedded as a List Nat recording the set's iteration
  order, with a no-duplicates invariant.  Rust iterates a HashSet in an
  order that is not a function of its mathematical contents (the hash
  seed differs between HashMap instances), which is exactly why the order
  has to be part of the embedded state: serde serializes the set by
  iterating it.  HashSet.insert is a no-op when the element is present
  and otherwise places the new element at some position of the iteration
  order; the embedding determinizes that position as the end of the list.
  No claim depends on which position is chosen.
* Vec.sort_by in Tasks::add / Notes::add is a stable sort.  Stable
  sorting is extensionally a unique function (sorted output, ties kept in
  input order), so it is embedded as insertion sort (sortByKey below),
  which is stable.
* slice::binary_search_by is embedded as the current branchless
  implementation from Rust's standard library (bsGo below).  Rust only
  documents WHICH of several equal elements is found as unspecified; no
  claim below depends on that choice.  The Err payload (insertion point)
  is never used by this repository, so the embedding returns Option Nat.
-/

namespace Regia

/-! ## Data model (src/todo.rs, src/note.rs, src/db.rs) -/

/-- TaskType from src/todo.rs. -/
inductive TaskType where
  | Deadline : TaskType
  | Repeated : TaskType
deriving DecidableEq, Repr

/-- RepeatType from src/todo.rs. -/
inductive RepeatType where
  | Daily : RepeatType
  | Weekly : RepeatType
  | Monthly : RepeatType
deriving DecidableEq, Repr

/-- Task from src/todo.rs.  Field names and order follow the Rust struct;
the field order is what the msgpack codec serializes. -/
structure Task where
  id : Nat
  priority : Nat
  created : Int
  due : Option Int
  content : List Nat
  task_type : Option TaskType
  «repeat» : Option RepeatType
  depends : List Nat
deriving DecidableEq, Repr

/-- Note from src/note.rs. -/
structure Note where
  id : Nat
  created : Int
  content : List Nat
deriving DecidableEq, Repr

/-- Tasks (the task store) from src/todo.rs. -/
structure Tasks where
  id : Nat
  group_name : List Nat
  tasks : List Task
deriving DecidableEq, Repr

/-- Notes (the note store) from src/note.rs. -/
structure Notes where
  id : Nat
  group_name : List Nat
  notes : List Note
deriving DecidableEq, Repr

/-- Database from src/db.rs. -/
structure Database where
  tasks : Tasks
  notes : Notes
deriving DecidableEq, Repr

/-- UTF-8 bytes of the string "root", the default group name. -/
def rootBytes : List Nat := [114, 111, 111, 116]

/-- Tasks::new.  The store's own Uuid is random at runtime, so it is a
parameter of the embedding. -/
def Tasks.new (uid : Nat) : Tasks := ⟨uid, rootBytes, []⟩

/-- Default::default for Notes (src/note.rs).  The store's own Uuid is
random at runtime, so it is a parameter of the embedding. -/
def Notes.newStore (uid : Nat) : Notes := ⟨uid, rootBytes, []⟩

/-! ## Stable sort (Vec::sort_by with the identity comparator)

Both stores sort with left.partial_cmp(right), which compares identities
only.  sortByKey key l is the unique stable sort of l by key. -/

/-- Insert x in front of the first element whose key is not below x's key.
This is the insertion step of a stable insertion sort: an element is
placed before every equal-keyed element that was further right in the
input. -/
def orderedInsertK (key : α → Nat) (x : α) : List α → List α
  | [] => [x]
  | y :: ys => if key x ≤ key y then x :: y :: ys else y :: orderedInsertK key x ys

/-- Stable insertion sort by key; embeds Vec::sort_by with the
identity-projecting comparator of src/todo.rs and src/note.rs. -/
def sortByKey (key : α → Nat) : List α → List α
  | [] => []
  | a :: l => orderedInsertK key a (sortByKey key l)

/-! ## Binary search (slice::binary_search_by) -/

/-- Key of the list element at index i (0 when out of range; all uses are
guarded by bounds invariants). -/
def idAt (key : α → Nat) (l : List α) (i : Nat) : Nat :=
  match l.get? i with
  | some x => key x
  | none => 0

/-- Loop of the branchless binary search from Rust's standard library:
while size > 1, probe mid = base + size/2, keep base when the probe is
greater than the target, move base to mid otherwise, and shrink size to
size - size/2; one final comparison at base decides the answer.  The fuel
argument is only a structural-termination device; fuel = initial size is
always enough because size strictly shrinks each step. -/
def bsGo (key : α → Nat) (l : List α) (target : Nat) : Nat → Nat → Nat → Option Nat
  | 0, _, _ => none
  | fuel + 1, base, size =>
    if size ≤ 1 then
      if idAt key l base = target then some base else none
    else
      let half := size / 2
      if target < idAt key l (base + half) then
        bsGo key l target fuel base (size - half)
      else
        bsGo key l target fuel (base + half) (size - half)

/-- slice::binary_search_by with the probe.id.cmp(target) comparator.
Returns the found index, or none (the Err insertion point is unused in
this repository). -/
def binarySearchById (key : α → Nat) (l : List α) (target : Nat) : Option Nat :=
  if l.length = 0 then none else bsGo key l target l.length 0 l.length

/-! ## Store operations -/

/-- Tasks::add (src/todo.rs): push, then sort by the identity-only
comparator. -/
def Tasks.add (s : Tasks) (t : Task) : Tasks :=
  { s with tasks := sortByKey Task.id (s.tasks ++ [t]) }

/-- Tasks::remove (src/todo.rs): binary-search the identity; delete the
found index, otherwise do nothing. -/
def Tasks.remove (s : Tasks) (task_id : Nat) : Tasks :=
  match binarySearchById Task.id s.tasks task_id with
  | some index => { s with tasks := s.tasks.eraseIdx index }
  | none => s

/-- Tasks::get_tasks (src/todo.rs). -/
def Tasks.get_tasks (s : Tasks) : List Task := s.tasks

/-- Notes::add (src/note.rs): push, then sort by the identity-only
comparator. -/
def Notes.add (s : Notes) (n : Note) : Notes :=
  { s with notes := sortByKey Note.id (s.notes ++ [n]) }

/-- Notes::remove (src/note.rs). -/
def Notes.remove (s : Notes) (note_id : Nat) : Notes :=
  match binarySearchById Note.id s.notes note_id with
  | some index => { s with notes := s.notes.eraseIdx index }
  | none => s

/-- Notes::get_notes (src/note.rs). -/
def Notes.get_notes (s : Notes) : List Note := s.notes

/-- Notes::get_note (src/note.rs): binary-search, then Vec::get at the
found index. -/
def Notes.get_note (s : Notes) (id : Nat) : Option Note :=
  match binarySearchById Note.id s.notes id with
  | some index => s.notes.get? index
  | none => none

/-- Modelled from the spec: Tasks::get_task.  The function is called from
the repository's taskmaster.rs but is not defined in any file under src/;
the spec describes the Store get operation as: binary-searches the sorted
sequence by identity; returns the matching Record or not found; no side
effects.  The model mirrors Notes::get_note verbatim. -/
def Tasks.get_task (s : Tasks) (id : Nat) : Option Task :=
  match binarySearchById Task.id s.tasks id with
  | some index => s.tasks.get? index
  | none => none

/-- Task::add_dependency (src/todo.rs): HashSet::insert of the other
identity; a no-op when already present, otherwise the new identity joins
the iteration order (determinized as the end of the list; no claim
depends on the position). -/
def Task.add_dependency (t : Task) (task_id : Nat) : Task :=
  if task_id ∈ t.depends then t else { t with depends := t.depends ++ [task_id] }

/-! ## MessagePack primitives

Bytes are modelled as List Nat with every entry below 256.  The encoders
below produce exactly the bytes rmp_serde's default Serializer writes for
this data model: structs and sequences as msgpack arrays, Strings as
msgpack str, Uuid as a 16-byte msgpack bin, integers in their shortest
unsigned form, Option as nil-or-value, and unit enum variants as the
variant-name str.  Decoders are prefix parsers returning the value and
the unconsumed tail (rmp_serde never checks for trailing bytes), and
accept the same header leniencies rmp does where a claim depends on it
(array16/array32 headers for struct arrays). -/

/-- Big-endian bytes of n, k bytes wide (most significant first). -/
def natToBeBytes : Nat → Nat → List Nat
  | 0, _ => []
  | k + 1, n => (n / 256 ^ k) :: natToBeBytes k (n % 256 ^ k)

/-- Value of a big-endian byte list. -/
def bytesToNat (l : List Nat) : Nat := l.foldl (fun acc b => acc * 256 + b) 0

/-- Read exactly n bytes from the front of the input. -/
def readN : Nat → List Nat → Option (List Nat × List Nat)
  | 0, bs => some ([], bs)
  | _ + 1, [] => none
  | n + 1, b :: bs => (readN n bs).map (fun p => (b :: p.1, p.2))

/-- Shortest unsigned msgpack encoding of n (positive fixint, uint8,
uint16, uint32, uint64), as rmp writes for integer fields. -/
def encodeUint (n : Nat) : List Nat :=
  if n < 128 then [n]
  else if n < 256 then [0xcc, n]
  else if n < 65536 then 0xcd :: natToBeBytes 2 n
  else if n < 4294967296 then 0xce :: natToBeBytes 4 n
  else 0xcf :: natToBeBytes 8 n

/-- Parse an unsigned msgpack integer in any of the formats encodeUint
emits. -/
def decodeUint : List Nat → Option (Nat × List Nat)
  | [] => none
  | b :: bs =>
    if b < 128 then some (b, bs)
    else if b = 0xcc then
      match bs with
      | b0 :: rest => some (b0, rest)
      | [] => none
    else if b = 0xcd then (readN 2 bs).map (fun p => (bytesToNat p.1, p.2))
    else if b = 0xce then (readN 4 bs).map (fun p => (bytesToNat p.1, p.2))
    else if b = 0xcf then (readN 8 bs).map (fun p => (bytesToNat p.1, p.2))
    else none

/-- Msgpack str header for a payload of len bytes (fixstr, str8, str16,
str32 -- the shortest form, as rmp writes). -/
def strHeader (len : Nat) : List Nat :=
  if len < 32 then [0xa0 + len]
  else if len < 256 then [0xd9, len]
  else if len < 65536 then 0xda :: natToBeBytes 2 len
  else 0xdb :: natToBeBytes 4 len

/-- Msgpack str value: header then raw payload bytes. -/
def encodeStr (s : List Nat) : List Nat := strHeader s.length ++ s

/-- Parse a msgpack str header, returning the payload length. -/
def decodeStrLen : List Nat → Option (Nat × List Nat)
  | [] => none
  | b :: bs =>
    if 0xa0 ≤ b ∧ b ≤ 0xbf then some (b - 0xa0, bs)
    else if b = 0xd9 then
      match bs with
      | b0 :: rest => some (b0, rest)
      | [] => none
    else if b = 0xda then (readN 2 bs).map (fun p => (bytesToNat p.1, p.2))
    else if b = 0xdb then (readN 4 bs).map (fun p => (bytesToNat p.1, p.2))
    else none

/-- Parse a msgpack str value, returning the raw payload bytes. -/
def decodeStr (bs : List Nat) : Option (List Nat × List Nat) :=
  (decodeStrLen bs).bind (fun p => readN p.1 p.2)

/-- Msgpack array header for len elements (fixarray, array16, array32). -/
def arrayHeader (len : Nat) : List Nat :=
  if len < 16 then [0x90 + len]
  else if len < 65536 then 0xdc :: natToBeBytes 2 len
  else 0xdd :: natToBeBytes 4 len

/-- Parse a msgpack array header, returning the element count.  Like rmp,
any of the three header forms is accepted. -/
def decodeArrayLen : List Nat → Option (Nat × List Nat)
  | [] => none
  | b :: bs =>
    if 0x90 ≤ b ∧ b ≤ 0x9f then some (b - 0x90, bs)
    else if b = 0xdc then (readN 2 bs).map (fun p => (bytesToNat p.1, p.2))
    else if b = 0xdd then (readN 4 bs).map (fun p => (bytesToNat p.1, p.2))
    else none

/-- Uuid as serde sees it in a binary format: the 16 raw bytes, which rmp
frames as bin8. -/
def encodeUuid (u : Nat) : List Nat := 0xc4 :: 16 :: natToBeBytes 16 u

/-- Parse a bin8-framed Uuid; Uuid::from_slice insists on exactly 16
bytes. -/
def decodeUuid : List Nat → Option (Nat × List Nat)
  | 0xc4 :: len :: bs =>
    (readN len bs).bind (fun p => if len = 16 then some (bytesToNat p.1, p.2) else none)
  | _ => none

/-- ASCII decimal digits of n, least significant first (the fuel argument
is a structural-termination device; fuel at least n is always enough). -/
def digitsRevAscii : Nat → Nat → List Nat
  | 0, _ => []
  | fuel + 1, n => if n = 0 then [] else (n % 10 + 48) :: digitsRevAscii fuel (n / 10)

/-- Injective rendering of a timestamp as ASCII bytes: optional minus
sign then decimal digits.  Stands for chrono's RFC3339 rendering, whose
exact grammar is abstracted (see the header comment); what the claims
need is that the rendering is a str payload that parses back to exactly
the original instant. -/
def tsBytes (t : Int) : List Nat :=
  if t < 0 then 0x2d :: (digitsRevAscii t.natAbs t.natAbs).reverse
  else if t = 0 then [48]
  else (digitsRevAscii t.natAbs t.natAbs).reverse

/-- Value of ASCII decimal digit bytes, most significant first; none when
a byte is not a digit or the payload is empty. -/
def parseDigits (l : List Nat) : Option Nat :=
  match l with
  | [] => none
  | _ =>
    if l.all (fun b => decide (48 ≤ b ∧ b ≤ 57)) then
      some (l.foldl (fun acc b => acc * 10 + (b - 48)) 0)
    else none

/-- Parse a rendered timestamp payload back to the instant. -/
def parseTs (l : List Nat) : Option Int :=
  match l with
  | [] => none
  | b :: rest =>
    if b = 0x2d then (parseDigits rest).map (fun n => -(Int.ofNat n))
    else (parseDigits (b :: rest)).map (fun n => Int.ofNat n)

/-- chrono DateTime serialization: the rendered instant framed as a
msgpack str. -/
def encodeTs (t : Int) : List Nat := encodeStr (tsBytes t)

/-- Parse a msgpack-str-framed timestamp. -/
def decodeTs (bs : List Nat) : Option (Int × List Nat) :=
  (decodeStr bs).bind (fun p => (parseTs p.1).map (fun t => (t, p.2)))

/-! ## Option, enum, and sequence codecs -/

/-- Serde Option: nil for None, the bare value for Some. -/
def encodeOpt (enc : α → List Nat) : Option α → List Nat
  | none => [0xc0]
  | some v => enc v

/-- Serde Option decoding as rmp does it: peek at the marker; nil means
None, anything else is parsed as the value. -/
def decodeOpt (dec : List Nat → Option (α × List Nat)) (bs : List Nat) :
    Option (Option α × List Nat) :=
  match bs with
  | [] => none
  | b :: rest =>
    if b = 0xc0 then some (none, rest)
    else (dec (b :: rest)).map (fun p => (some p.1, p.2))

/-- ASCII bytes of the TaskType variant names. -/
def taskTypeName : TaskType → List Nat
  | TaskType.Deadline => [68, 101, 97, 100, 108, 105, 110, 101]
  | TaskType.Repeated => [82, 101, 112, 101, 97, 116, 101, 100]

/-- Unit enum variants are serialized as their name (a msgpack str). -/
def encodeTaskType (v : TaskType) : List Nat := encodeStr (taskTypeName v)

/-- Parse a TaskType variant name. -/
def decodeTaskType (bs : List Nat) : Option (TaskType × List Nat) :=
  (decodeStr bs).bind (fun p =>
    if p.1 = taskTypeName TaskType.Deadline then some (TaskType.Deadline, p.2)
    else if p.1 = taskTypeName TaskType.Repeated then some (TaskType.Repeated, p.2)
    else none)

/-- ASCII bytes of the RepeatType variant names. -/
def repeatTypeName : RepeatType → List Nat
  | RepeatType.Daily => [68, 97, 105, 108, 121]
  | RepeatType.Weekly => [87, 101, 101, 107, 108, 121]
  | RepeatType.Monthly => [77, 111, 110, 116, 104, 108, 121]

/-- Unit enum variants are serialized as their name (a msgpack str). -/
def encodeRepeatType (v : RepeatType) : List Nat := encodeStr (repeatTypeName v)

/-- Parse a RepeatType variant name. -/
def decodeRepeatType (bs : List Nat) : Option (RepeatType × List Nat) :=
  (decodeStr bs).bind (fun p =>
    if p.1 = repeatTypeName RepeatType.Daily then some (RepeatType.Daily, p.2)
    else if p.1 = repeatTypeName RepeatType.Weekly then some (RepeatType.Weekly, p.2)
    else if p.1 = repeatTypeName RepeatType.Monthly then some (RepeatType.Monthly, p.2)
    else none)

/-- Concatenated encodings of a sequence's elements (the body that
follows its array header). -/
def encodeListBody (enc : α → List Nat) : List α → List Nat
  | [] => []
  | v :: vs => enc v ++ encodeListBody enc vs

/-- Parse exactly n sequence elements. -/
def decodeListN (dec : List Nat → Option (α × List Nat)) :
    Nat → List Nat → Option (List α × List Nat)
  | 0, bs => some ([], bs)
  | n + 1, bs =>
    (dec bs).bind (fun p => (decodeListN dec n p.2).map (fun q => (p.1 :: q.1, q.2)))

/-! ## Struct codecs (serde derive: a struct is a fixed-length array of
its fields, in declaration order) -/

/-- Encoding of a Task: an 8-element array of its fields. -/
def encodeTask (t : Task) : List Nat :=
  arrayHeader 8 ++
    (encodeUuid t.id ++
      (encodeUint t.priority ++
        (encodeTs t.created ++
          (encodeOpt encodeTs t.due ++
            (encodeStr t.content ++
              (encodeOpt encodeTaskType t.task_type ++
                (encodeOpt encodeRepeatType t.«repeat» ++
                  (arrayHeader t.depends.length ++
                    encodeListBody encodeUuid t.depends))))))))

/-- Parse a Task (an 8-field struct array). -/
def decodeTask (bs : List Nat) : Option (Task × List Nat) :=
  (decodeArrayLen bs).bind (fun a0 =>
    if a0.1 = 8 then
      (decodeUuid a0.2).bind (fun f0 =>
        (decodeUint f0.2).bind (fun f1 =>
          (decodeTs f1.2).bind (fun f2 =>
            (decodeOpt decodeTs f2.2).bind (fun f3 =>
              (decodeStr f3.2).bind (fun f4 =>
                (decodeOpt decodeTaskType f4.2).bind (fun f5 =>
                  (decodeOpt decodeRepeatType f5.2).bind (fun f6 =>
                    (decodeArrayLen f6.2).bind (fun a1 =>
                      (decodeListN decodeUuid a1.1 a1.2).map (fun f7 =>
                        (⟨f0.1, f1.1, f2.1, f3.1, f4.1, f5.1, f6.1, f7.1⟩, f7.2))))))))))
    else none)

/-- Encoding of a Note: a 3-element array of its fields. -/
def encodeNote (n : Note) : List Nat :=
  arrayHeader 3 ++ (encodeUuid n.id ++ (encodeTs n.created ++ encodeStr n.content))

/-- Parse a Note (a 3-field struct array). -/
def decodeNote (bs : List Nat) : Option (Note × List Nat) :=
  (decodeArrayLen bs).bind (fun a0 =>
    if a0.1 = 3 then
      (decodeUuid a0.2).bind (fun f0 =>
        (decodeTs f0.2).bind (fun f1 =>
          (decodeStr f1.2).map (fun f2 => (⟨f0.1, f1.1, f2.1⟩, f2.2))))
    else none)

/-- Encoding of the task store: a 3-element array of id, group_name, and
the task sequence. -/
def encodeTasks (s : Tasks) : List Nat :=
  arrayHeader 3 ++
    (encodeUuid s.id ++
      (encodeStr s.group_name ++
        (arrayHeader s.tasks.length ++ encodeListBody encodeTask s.tasks)))

/-- Parse the task store. -/
def decodeTasks (bs : List Nat) : Option (Tasks × List Nat) :=
  (decodeArrayLen bs).bind (fun a0 =>
    if a0.1 = 3 then
      (decodeUuid a0.2).bind (fun f0 =>
        (decodeStr f0.2).bind (fun f1 =>
          (decodeArrayLen f1.2).bind (fun a1 =>
            (decodeListN decodeTask a1.1 a1.2).map (fun f2 =>
              (⟨f0.1, f1.1, f2.1⟩, f2.2)))))
    else none)

/-- Encoding of the note store: a 3-element array of id, group_name, and
the note sequence. -/
def encodeNotes (s : Notes) : List Nat :=
  arrayHeader 3 ++
    (encodeUuid s.id ++
      (encodeStr s.group_name ++
        (arrayHeader s.notes.length ++ encodeListBody encodeNote s.notes)))

/-- Parse the note store. -/
def decodeNotes (bs : List Nat) : Option (Notes × List Nat) :=
  (decodeArrayLen bs).bind (fun a0 =>
    if a0.1 = 3 then
      (decodeUuid a0.2).bind (fun f0 =>
        (decodeStr f0.2).bind (fun f1 =>
          (decodeArrayLen f1.2).bind (fun a1 =>
            (decodeListN decodeNote a1.1 a1.2).map (fun f2 =>
              (⟨f0.1, f1.1, f2.1⟩, f2.2)))))
    else none)

/-- Encoding of the Database aggregate: a 2-element array of the two
stores. -/
def encodeDatabase (d : Database) : List Nat :=
  arrayHeader 2 ++ (encodeTasks d.tasks ++ encodeNotes d.notes)

/-- Parse a Database aggregate off the front of the input. -/
def decodeDatabase (bs : List Nat) : Option (Database × List Nat) :=
  (decodeArrayLen bs).bind (fun a0 =>
    if a0.1 = 2 then
      (decodeTasks a0.2).bind (fun f0 =>
        (decodeNotes f0.2).map (fun f1 => (⟨f0.1, f1.1⟩, f1.2)))
    else none)

/-! ## Persistence (src/db.rs) -/

/-- IO error taxonomy as the callers observe it: ErrorKind::NotFound from
File::open on a missing path, ErrorKind::Other with a message for codec
faults. -/
inductive IOErr where
  | notFound : IOErr
  | other : String → IOErr
deriving DecidableEq, Repr

/-- Database::serialize_msgpack.  rmp serialization into a Vec cannot
fail for these types, so the Rust Err branch is dead code and the
embedding is total. -/
def Database.serialize_msgpack (d : Database) : List Nat := encodeDatabase d

/-- Database::deserialize_msgpack: parse one Database value off the
buffer; trailing bytes are ignored (the Deserializer is never asked
whether it consumed everything).  Any parse failure is reported as
ErrorKind::Other, "Deserialization failed". -/
def Database.deserialize_msgpack (buf : List Nat) : Except IOErr Database :=
  match decodeDatabase buf with
  | some p => Except.ok p.1
  | none => Except.error (IOErr.other ("Deserialization failed"))

/-- Decidable equality of results, used only to evaluate concrete
witnesses. -/
instance {e a : Type} [DecidableEq e] [DecidableEq a] : DecidableEq (Except e a)
  | Except.ok x, Except.ok y =>
    if h : x = y then Decidable.isTrue (by rw [h]) else Decidable.isFalse (by simp [h])
  | Except.ok _, Except.error _ => Decidable.isFalse (by simp)
  | Except.error _, Except.ok _ => Decidable.isFalse (by simp)
  | Except.error x, Except.error y =>
    if h : x = y then Decidable.isTrue (by rw [h]) else Decidable.isFalse (by simp [h])

/-- File system model: an association list from paths to byte contents.
Only existence is modelled; permission faults are outside the claims. -/
def FileSys : Type := List (String × List Nat)

/-- Contents of a path, when the file exists. -/
def FileSys.lookup (fs : FileSys) (p : String) : Option (List Nat) :=
  List.lookup p fs

/-- read_from_disk (src/db.rs): File::open then read_to_end; a missing
path surfaces ErrorKind::NotFound. -/
def read_from_disk (fs : FileSys) (p : String) : Except IOErr (List Nat) :=
  match fs.lookup p with
  | some bytes => Except.ok bytes
  | none => Except.error IOErr.notFound

/-- Database::from_disk: read the whole file, then deserialize. -/
def Database.from_disk (fs : FileSys) (p : String) : Except IOErr Database :=
  match read_from_disk fs p with
  | Except.ok buf => Database.deserialize_msgpack buf
  | Except.error e => Except.error e

/-! ## Sorting lemmas -/

/-- SortedLe key l: the list is in (weakly) ascending key order. -/
def SortedLe (key : α → Nat) (l : List α) : Prop :=
  l.Pairwise (fun a b => key a ≤ key b)

/-- SortedLt key l: the list is in strictly ascending key order. -/
def SortedLt (key : α → Nat) (l : List α) : Prop :=
  l.Pairwise (fun a b => key a < key b)

instance (key : α → Nat) (l : List α) : Decidable (SortedLe key l) :=
  inferInstanceAs (Decidable (l.Pairwise _))

instance (key : α → Nat) (l : List α) : Decidable (SortedLt key l) :=
  inferInstanceAs (Decidable (l.Pairwise _))

theorem mem_orderedInsertK (key : α → Nat) (x z : α) (l : List α) :
    z ∈ orderedInsertK key x l ↔ z = x ∨ z ∈ l := by
  induction l with
  | nil => simp [orderedInsertK]
  | cons y ys ih =>
    by_cases h : key x ≤ key y
    · simp [orderedInsertK, h]
    · simp [orderedInsertK, h, ih]
      tauto

theorem perm_orderedInsertK (key : α → Nat) (x : α) (l : List α) :
    List.Perm (orderedInsertK key x l) (x :: l) := by
  induction l with
  | nil => simp [orderedInsertK]
  | cons y ys ih =>
    by_cases h : key x ≤ key y
    · simp [orderedInsertK, h]
    · simp only [orderedInsertK, if_neg h]
      exact (ih.cons y).trans (List.Perm.swap x y ys)

theorem perm_sortByKey (key : α → Nat) (l : List α) :
    List.Perm (sortByKey key l) l := by
  induction l with
  | nil => simp [sortByKey]
  | cons a l ih =>
    exact (perm_orderedInsertK key a (sortByKey key l)).trans (ih.cons a)

theorem sortedLe_orderedInsertK (key : α → Nat) (x : α) (l : List α)
    (h : SortedLe key l) : SortedLe key (orderedInsertK key x l) := by
  unfold SortedLe at h ⊢
  induction l with
  | nil => simp [orderedInsertK]
  | cons y ys ih =>
    rcases List.pairwise_cons.1 h with ⟨hy, hys⟩
    by_cases hxy : key x ≤ key y
    · simp only [orderedInsertK, if_pos hxy]
      refine List.pairwise_cons.2 ⟨?_, h⟩
      intro z hz
      rcases List.mem_cons.1 hz with rfl | hz
      · exact hxy
      · exact le_trans hxy (hy z hz)
    · simp only [orderedInsertK, if_neg hxy]
      refine List.pairwise_cons.2 ⟨?_, ih hys⟩
      intro z hz
      rcases (mem_orderedInsertK key x z ys).1 hz with rfl | hz
      · omega
      · exact hy z hz

theorem sortedLe_sortByKey (key : α → Nat) (l : List α) :
    SortedLe key (sortByKey key l) := by
  induction l with
  | nil => simp [sortByKey, SortedLe]
  | cons a l ih => exact sortedLe_orderedInsertK key a (sortByKey key l) ih

/-- Weak sortedness plus key distinctness gives strict sortedness. -/
theorem sortedLt_of_sortedLe_nodup (key : α → Nat) (l : List α)
    (hle : SortedLe key l) (hnd : (l.map key).Nodup) : SortedLt key l := by
  have hne : l.Pairwise (fun a b => key a ≠ key b) :=
    (List.pairwise_map.1 hnd)
  exact (hle.and hne).imp (fun h => lt_of_le_of_ne h.1 h.2)

/-! ## Position of a newly inserted element in a sorted store

For a sorted input, the stable sort of l ++ [r] is exactly l with r
spliced in after every element whose key is at most r's key.  insertLast
names that splicing. -/

/-- Insert r after all elements with key at most its own (the position a
stable sort gives the rightmost input element among equal keys). -/
def insertLast (key : α → Nat) (r : α) : List α → List α
  | [] => [r]
  | y :: ys => if key r < key y then r :: y :: ys else y :: insertLast key r ys

theorem orderedInsertK_of_le_all (key : α → Nat) (y : α) (l : List α)
    (h : ∀ z ∈ l, key y ≤ key z) : orderedInsertK key y l = y :: l := by
  cases l with
  | nil => rfl
  | cons z zs => simp [orderedInsertK, h z (List.mem_cons_self z zs)]

theorem insertLast_of_lt_all (key : α → Nat) (r : α) (l : List α)
    (h : ∀ z ∈ l, key r < key z) : insertLast key r l = r :: l := by
  cases l with
  | nil => rfl
  | cons z zs => simp [insertLast, h z (List.mem_cons_self z zs)]

/-- On sorted input, appending r and stable-sorting is the same as
splicing r in after its equal-keyed predecessors. -/
theorem sortByKey_append_singleton (key : α → Nat) (r : α) (s : List α)
    (hs : SortedLe key s) : sortByKey key (s ++ [r]) = insertLast key r s := by
  induction s with
  | nil => simp [sortByKey, orderedInsertK, insertLast]
  | cons y ys ih =>
    rcases List.pairwise_cons.1 hs with ⟨hy, hys⟩
    have step : sortByKey key ((y :: ys) ++ [r]) =
        orderedInsertK key y (sortByKey key (ys ++ [r])) := rfl
    rw [step, ih hys]
    by_cases hr : key r < key y
    · have hall : ∀ z ∈ ys, key r < key z := fun z hz => lt_of_lt_of_le hr (hy z hz)
      rw [insertLast_of_lt_all key r ys hall]
      have : orderedInsertK key y (r :: ys) = r :: orderedInsertK key y ys := by
        simp [orderedInsertK]
        omega
      rw [this, orderedInsertK_of_le_all key y ys hy]
      simp [insertLast, hr]
    · cases ys with
      | nil =>
        simp [insertLast, orderedInsertK, hr]
      | cons z zs =>
        rcases List.pairwise_cons.1 hys with ⟨hz, hzs⟩
        by_cases hrz : key r < key z
        · simp only [insertLast, if_pos hrz, if_neg hr]
          have : key y ≤ key r := by omega
          simp [orderedInsertK, this]
        · simp only [insertLast, if_neg hrz, if_neg hr]
          have hyz : key y ≤ key z := hy z (List.mem_cons_self z zs)
          simp [orderedInsertK, hyz]

/-- Splicing past a prefix whose keys are at most r's, an equal-keyed
element, and a suffix of larger keys lands r right after the equal
element. -/
theorem insertLast_decomp (key : α → Nat) (r old : α) (l1 l2 : List α)
    (h1 : ∀ x ∈ l1, key x ≤ key r) (hold : key old = key r)
    (h2 : ∀ x ∈ l2, key r < key x) :
    insertLast key r (l1 ++ old :: l2) = l1 ++ old :: r :: l2 := by
  induction l1 with
  | nil =>
    simp only [List.nil_append, insertLast, hold]
    rw [if_neg (by omega)]
    rw [insertLast_of_lt_all key r l2 h2]
  | cons a l1' ih =>
    have ha : key a ≤ key r := h1 a (List.mem_cons_self a l1')
    have e1 : (a :: l1') ++ old :: l2 = a :: (l1' ++ old :: l2) := rfl
    have e2 : (a :: l1') ++ old :: r :: l2 = a :: (l1' ++ old :: r :: l2) := rfl
    rw [e1, e2]
    simp only [insertLast]
    rw [if_neg (by omega : ¬ key r < key a)]
    rw [ih (fun x hx => h1 x (List.mem_cons_of_mem a hx))]

/-! ## Binary search lemmas -/

theorem idAt_of_lt (key : α → Nat) (l : List α) (i : Nat) (h : i < l.length) :
    idAt key l i = key (l.get ⟨i, h⟩) := by
  unfold idAt
  rw [List.get?_eq_get h]

/-- Sorted lists have monotone keys along indices. -/
theorem idAt_mono (key : α → Nat) (l : List α) (hs : SortedLe key l)
    (i j : Nat) (hij : i ≤ j) (hj : j < l.length) :
    idAt key l i ≤ idAt key l j := by
  rcases Nat.eq_or_lt_of_le hij with rfl | hlt
  · exact Nat.le_refl _
  · have hi : i < l.length := lt_trans hlt hj
    rw [idAt_of_lt key l i hi, idAt_of_lt key l j hj]
    exact List.pairwise_iff_get.1 hs ⟨i, hi⟩ ⟨j, hj⟩ hlt

/-- Soundness of the branchless loop: a found index is in range and its
element's key is the target. -/
theorem bsGo_found (key : α → Nat) (l : List α) (target : Nat) :
    ∀ fuel base size, 1 ≤ size → base + size ≤ l.length →
      ∀ i, bsGo key l target fuel base size = some i →
        i < l.length ∧ idAt key l i = target := by
  intro fuel
  induction fuel with
  | zero => intro base size _ _ i h; simp [bsGo] at h
  | succ fuel ih =>
    intro base size h1 h2 i h
    by_cases hsz : size ≤ 1
    · simp only [bsGo, if_pos hsz] at h
      by_cases he : idAt key l base = target
      · rw [if_pos he] at h
        cases h
        exact ⟨by omega, he⟩
      · rw [if_neg he] at h
        cases h
    · simp only [bsGo, if_neg hsz] at h
      by_cases hc : target < idAt key l (base + size / 2)
      · rw [if_pos hc] at h
        exact ih base (size - size / 2) (by omega) (by omega) i h
      · rw [if_neg hc] at h
        exact ih (base + size / 2) (size - size / 2) (by omega) (by omega) i h

/-- Completeness of the branchless loop on sorted input: when some index
in the current window carries the target key, the loop finds an index
with the target key. -/
theorem bsGo_complete (key : α → Nat) (l : List α) (target : Nat)
    (hs : SortedLe key l) :
    ∀ fuel base size, 1 ≤ size → base + size ≤ l.length → size ≤ fuel →
      (∃ j, base ≤ j ∧ j < base + size ∧ idAt key l j = target) →
      ∃ i, bsGo key l target fuel base size = some i := by
  intro fuel
  induction fuel with
  | zero => intro base size h1 _ hf _; omega
  | succ fuel ih =>
    intro base size h1 h2 hf hw
    by_cases hsz : size ≤ 1
    · rcases hw with ⟨j, hj1, hj2, hj3⟩
      have hjb : j = base := by omega
      refine ⟨base, ?_⟩
      simp [bsGo, if_pos hsz, hjb ▸ hj3]
    · rcases hw with ⟨j, hj1, hj2, hj3⟩
      have hmidlt : base + size / 2 < l.length := by omega
      by_cases hc : target < idAt key l (base + size / 2)
      · have hjlt : j < base + size / 2 := by
          by_contra hge
          have := idAt_mono key l hs (base + size / 2) j (by omega) (by omega)
          omega
        have := ih base (size - size / 2) (by omega) (by omega) (by omega)
          ⟨j, hj1, by omega, hj3⟩
        rcases this with ⟨i, hi⟩
        refine ⟨i, ?_⟩
        simp only [bsGo, if_neg hsz]
        rw [if_pos hc]
        exact hi
      · have hwin : ∃ j2, base + size / 2 ≤ j2 ∧ j2 < base + size / 2 + (size - size / 2) ∧
            idAt key l j2 = target := by
          by_cases he : idAt key l (base + size / 2) = target
          · exact ⟨base + size / 2, Nat.le_refl _, by omega, he⟩
          · have hjge : base + size / 2 ≤ j := by
              by_contra hlt2
              have := idAt_mono key l hs j (base + size / 2) (by omega) hmidlt
              omega
            exact ⟨j, hjge, by omega, hj3⟩
        have := ih (base + size / 2) (size - size / 2) (by omega) (by omega) (by omega) hwin
        rcases this with ⟨i, hi⟩
        refine ⟨i, ?_⟩
        simp only [bsGo, if_neg hsz]
        rw [if_neg hc]
        exact hi

/-- Soundness at the interface: a found index is in range and carries the
target key. -/
theorem binarySearchById_found (key : α → Nat) (l : List α) (target : Nat)
    (i : Nat) (h : binarySearchById key l target = some i) :
    ∃ hlt : i < l.length, key (l.get ⟨i, hlt⟩) = target := by
  unfold binarySearchById at h
  by_cases hn : l.length = 0
  · rw [if_pos hn] at h; cases h
  · rw [if_neg hn] at h
    have := bsGo_found key l target l.length 0 l.length (by omega) (by omega) i h
    rcases this with ⟨hlt, hkey⟩
    exact ⟨hlt, by rw [← idAt_of_lt key l i hlt]; exact hkey⟩

/-- The search never finds an absent key (no sortedness needed). -/
theorem binarySearchById_eq_none (key : α → Nat) (l : List α) (target : Nat)
    (habs : target ∉ l.map key) : binarySearchById key l target = none := by
  cases hres : binarySearchById key l target with
  | none => rfl
  | some i =>
    rcases binarySearchById_found key l target i hres with ⟨hlt, hkey⟩
    exact absurd (List.mem_map.2 ⟨l.get ⟨i, hlt⟩, List.get_mem l i hlt, hkey⟩) habs

/-- Completeness at the interface: on a sorted list, a present key is
found. -/
theorem binarySearchById_finds (key : α → Nat) (l : List α) (target : Nat)
    (hs : SortedLe key l) (hmem : target ∈ l.map key) :
    ∃ i, binarySearchById key l target = some i := by
  rcases List.mem_map.1 hmem with ⟨x, hx, hkey⟩
  rcases List.mem_iff_get.1 hx with ⟨⟨j, hj⟩, hget⟩
  have hne : l.length ≠ 0 := by omega
  have := bsGo_complete key l target hs l.length 0 l.length (by omega)
    (by omega) (Nat.le_refl _)
    ⟨j, Nat.zero_le _, by omega, by rw [idAt_of_lt key l j hj, hget]; exact hkey⟩
  rcases this with ⟨i, hi⟩
  refine ⟨i, ?_⟩
  unfold binarySearchById
  rw [if_neg hne]
  exact hi

/-! ## Primitive codec round-trip lemmas -/

theorem natToBeBytes_length (k n : Nat) : (natToBeBytes k n).length = k := by
  induction k generalizing n with
  | zero => rfl
  | succ k ih => simp [natToBeBytes, ih]

theorem readN_append (xs rest : List Nat) :
    readN xs.length (xs ++ rest) = some (xs, rest) := by
  induction xs with
  | nil => rfl
  | cons b bs ih => simp [readN, ih]

theorem natToBeBytes_foldl (k : Nat) :
    ∀ n acc, n < 256 ^ k →
      List.foldl (fun a b => a * 256 + b) acc (natToBeBytes k n) = acc * 256 ^ k + n := by
  induction k with
  | zero =>
    intro n acc h
    simp [natToBeBytes]
    omega
  | succ k ih =>
    intro n acc h
    simp only [natToBeBytes, List.foldl_cons]
    rw [ih (n % 256 ^ k) _ (Nat.mod_lt n (by positivity))]
    calc (acc * 256 + n / 256 ^ k) * 256 ^ k + n % 256 ^ k
        = acc * (256 ^ k * 256) + (256 ^ k * (n / 256 ^ k) + n % 256 ^ k) := by ring
      _ = acc * 256 ^ (k + 1) + n := by rw [Nat.div_add_mod, pow_succ]

theorem bytesToNat_natToBeBytes (k n : Nat) (h : n < 256 ^ k) :
    bytesToNat (natToBeBytes k n) = n := by
  unfold bytesToNat
  rw [natToBeBytes_foldl k n 0 h]
  omega

theorem readN_natToBeBytes (k n : Nat) (rest : List Nat) :
    readN k (natToBeBytes k n ++ rest) = some (natToBeBytes k n, rest) := by
  have := readN_append (natToBeBytes k n) rest
  rwa [natToBeBytes_length] at this

theorem decodeUint_encodeUint (n : Nat) (rest : List Nat) (h : n < 2 ^ 64) :
    decodeUint (encodeUint n ++ rest) = some (n, rest) := by
  unfold encodeUint
  by_cases h1 : n < 128
  · simp [decodeUint, h1]
  · by_cases h2 : n < 256
    · simp only [if_neg h1, if_pos h2]
      norm_num [decodeUint]
    · by_cases h3 : n < 65536
      · simp only [if_neg h1, if_neg h2, if_pos h3, List.cons_append]
        norm_num [decodeUint, readN_natToBeBytes]
        exact bytesToNat_natToBeBytes 2 n (by norm_num; omega)
      · by_cases h4 : n < 4294967296
        · simp only [if_neg h1, if_neg h2, if_neg h3, if_pos h4, List.cons_append]
          norm_num [decodeUint, readN_natToBeBytes]
          exact bytesToNat_natToBeBytes 4 n (by norm_num; omega)
        · simp only [if_neg h1, if_neg h2, if_neg h3, if_neg h4, List.cons_append]
          norm_num [decodeUint, readN_natToBeBytes]
          exact bytesToNat_natToBeBytes 8 n (by norm_num at h ⊢; omega)

theorem decodeStrLen_strHeader (len : Nat) (rest : List Nat) (h : len < 2 ^ 32) :
    decodeStrLen (strHeader len ++ rest) = some (len, rest) := by
  unfold strHeader
  by_cases h1 : len < 32
  · simp only [if_pos h1, List.cons_append, List.nil_append]
    have ha : 0xa0 ≤ 0xa0 + len ∧ 0xa0 + len ≤ 0xbf := by omega
    simp [decodeStrLen, ha]
  · by_cases h2 : len < 256
    · simp only [if_neg h1, if_pos h2]
      norm_num [decodeStrLen]
    · by_cases h3 : len < 65536
      · simp only [if_neg h1, if_neg h2, if_pos h3, List.cons_append]
        norm_num [decodeStrLen, readN_natToBeBytes]
        exact bytesToNat_natToBeBytes 2 len (by norm_num; omega)
      · simp only [if_neg h1, if_neg h2, if_neg h3, List.cons_append]
        norm_num [decodeStrLen, readN_natToBeBytes]
        exact bytesToNat_natToBeBytes 4 len (by norm_num at h ⊢; omega)

theorem decodeStr_encodeStr (s : List Nat) (rest : List Nat) (h : s.length < 2 ^ 32) :
    decodeStr (encodeStr s ++ rest) = some (s, rest) := by
  unfold decodeStr encodeStr
  rw [List.append_assoc, decodeStrLen_strHeader s.length (s ++ rest) h]
  simp [readN_append]

theorem decodeUuid_encodeUuid (u : Nat) (rest : List Nat) (h : u < 2 ^ 128) :
    decodeUuid (encodeUuid u ++ rest) = some (u, rest) := by
  unfold encodeUuid
  simp only [List.cons_append, decodeUuid, readN_natToBeBytes]
  norm_num
  exact bytesToNat_natToBeBytes 16 u (by norm_num; omega)

/-! ## Timestamp rendering round-trip -/

theorem digitsRevAscii_mem (fuel : Nat) :
    ∀ n, ∀ b ∈ digitsRevAscii fuel n, 48 ≤ b ∧ b ≤ 57 := by
  induction fuel with
  | zero => intro n b hb; simp [digitsRevAscii] at hb
  | succ fuel ih =>
    intro n b hb
    by_cases hn : n = 0
    · simp [digitsRevAscii, hn] at hb
    · simp only [digitsRevAscii, if_neg hn, List.mem_cons] at hb
      rcases hb with rfl | hb
      · have := Nat.mod_lt n (show 0 < 10 by norm_num)
        omega
      · exact ih (n / 10) b hb

theorem digitsRevAscii_foldl (fuel : Nat) :
    ∀ n acc, n ≤ fuel →
      List.foldl (fun acc b => acc * 10 + (b - 48)) acc ((digitsRevAscii fuel n).reverse) =
        acc * 10 ^ (digitsRevAscii fuel n).length + n := by
  induction fuel with
  | zero =>
    intro n acc h
    have : n = 0 := by omega
    simp [digitsRevAscii, this]
  | succ fuel ih =>
    intro n acc h
    by_cases hn : n = 0
    · simp [digitsRevAscii, hn]
    · simp only [digitsRevAscii, if_neg hn, List.reverse_cons, List.foldl_append,
        List.foldl_cons, List.foldl_nil, List.length_cons]
      have hdiv : n / 10 ≤ fuel := by
        have := Nat.div_lt_self (Nat.pos_of_ne_zero hn) (show 1 < 10 by norm_num)
        omega
      rw [ih (n / 10) acc hdiv]
      have hsub : n % 10 + 48 - 48 = n % 10 := by omega
      rw [hsub]
      calc (acc * 10 ^ (digitsRevAscii fuel (n / 10)).length + n / 10) * 10 + n % 10
          = acc * (10 ^ (digitsRevAscii fuel (n / 10)).length * 10) +
              (10 * (n / 10) + n % 10) := by ring
        _ = acc * 10 ^ ((digitsRevAscii fuel (n / 10)).length + 1) + n := by
            rw [Nat.div_add_mod, pow_succ]

theorem parseDigits_digitsRevAscii (n : Nat) (hn : n ≠ 0) :
    parseDigits ((digitsRevAscii n n).reverse) = some n := by
  have hne : digitsRevAscii n n ≠ [] := by
    cases n with
    | zero => exact absurd rfl hn
    | succ m => simp [digitsRevAscii, hn]
  have hrevne : (digitsRevAscii n n).reverse ≠ [] := by
    simpa using hne
  rcases List.exists_cons_of_ne_nil hrevne with ⟨c, cs, hcc⟩
  have hmem : ∀ b ∈ (digitsRevAscii n n).reverse, 48 ≤ b ∧ b ≤ 57 := by
    intro b hb
    exact digitsRevAscii_mem n n b (List.mem_reverse.1 hb)
  have hall : ((digitsRevAscii n n).reverse).all (fun b => decide (48 ≤ b ∧ b ≤ 57)) = true := by
    rw [List.all_eq_true]
    intro b hb
    simpa using hmem b hb
  rw [hcc] at hall ⊢
  simp only [parseDigits, hall, if_pos]
  rw [← hcc]
  rw [digitsRevAscii_foldl n n 0 (Nat.le_refl n)]
  simp

theorem parseTs_tsBytes (t : Int) : parseTs (tsBytes t) = some t := by
  unfold tsBytes
  by_cases hneg : t < 0
  · have habs : t.natAbs ≠ 0 := by omega
    rw [if_pos hneg]
    simp only [parseTs]
    rw [if_true, parseDigits_digitsRevAscii t.natAbs habs]
    simp only [Option.map_some']
    congr 1
    simp only [Int.ofNat_eq_natCast]
    omega
  · by_cases hz : t = 0
    · subst hz
      norm_num [parseTs, parseDigits]
    · have habs : t.natAbs ≠ 0 := by omega
      simp only [if_neg hneg, if_neg hz]
      have hne : digitsRevAscii t.natAbs t.natAbs ≠ [] := by
        rcases Nat.exists_eq_succ_of_ne_zero habs with ⟨m, hm⟩
        rw [hm]
        simp [digitsRevAscii, hm ▸ habs]
      have hrevne : (digitsRevAscii t.natAbs t.natAbs).reverse ≠ [] := by simpa using hne
      rcases List.exists_cons_of_ne_nil hrevne with ⟨c, cs, hcc⟩
      have hcd : 48 ≤ c ∧ c ≤ 57 := by
        have : c ∈ (digitsRevAscii t.natAbs t.natAbs).reverse := by
          rw [hcc]; exact List.mem_cons_self c cs
        exact digitsRevAscii_mem t.natAbs t.natAbs c (List.mem_reverse.1 this)
      rw [hcc]
      simp only [parseTs, if_neg (show ¬ c = 45 by omega)]
      rw [← hcc, parseDigits_digitsRevAscii t.natAbs habs]
      simp only [Option.map_some']
      congr 1
      simp only [Int.ofNat_eq_natCast]
      omega

theorem digitsRevAscii_length_le (fuel : Nat) :
    ∀ n k, n < 10 ^ k → n ≤ fuel → (digitsRevAscii fuel n).length ≤ k := by
  induction fuel with
  | zero => intro n k _ _; simp [digitsRevAscii]
  | succ fuel ih =>
    intro n k hk hf
    by_cases hn : n = 0
    · simp [digitsRevAscii, hn]
    · cases k with
      | zero => simp at hk; omega
      | succ k' =>
        simp only [digitsRevAscii, if_neg hn, List.length_cons]
        have hdivk : n / 10 < 10 ^ k' := by
          rw [Nat.div_lt_iff_lt_mul (show 0 < 10 by norm_num)]
          calc n < 10 ^ (k' + 1) := hk
            _ = 10 ^ k' * 10 := by rw [pow_succ]
        have hdivf : n / 10 ≤ fuel := by
          have := Nat.div_lt_self (Nat.pos_of_ne_zero hn) (show 1 < 10 by norm_num)
          omega
        have := ih (n / 10) k' hdivk hdivf
        omega

theorem tsBytes_length_lt (t : Int) (h : t.natAbs < 2 ^ 96) :
    (tsBytes t).length < 2 ^ 32 := by
  have hpow : (2 : Nat) ^ 96 < 10 ^ 29 := by norm_num
  have hlen : (digitsRevAscii t.natAbs t.natAbs).length ≤ 29 :=
    digitsRevAscii_length_le t.natAbs t.natAbs 29 (by omega) (Nat.le_refl _)
  unfold tsBytes
  by_cases hneg : t < 0
  · simp only [if_pos hneg, List.length_cons, List.length_reverse]
    norm_num
    omega
  · by_cases hz : t = 0
    · simp [if_neg hneg, hz]
    · simp only [if_neg hneg, if_neg hz, List.length_reverse]
      norm_num
      omega

theorem decodeTs_encodeTs (t : Int) (rest : List Nat) (h : t.natAbs < 2 ^ 96) :
    decodeTs (encodeTs t ++ rest) = some (t, rest) := by
  unfold decodeTs encodeTs
  rw [decodeStr_encodeStr (tsBytes t) rest (tsBytes_length_lt t h)]
  simp [parseTs_tsBytes]

/-! ## Composite codec round-trip lemmas -/

theorem decodeArrayLen_arrayHeader (len : Nat) (rest : List Nat) (h : len < 2 ^ 32) :
    decodeArrayLen (arrayHeader len ++ rest) = some (len, rest) := by
  unfold arrayHeader
  by_cases h1 : len < 16
  · simp only [if_pos h1, List.cons_append, List.nil_append]
    have ha : 0x90 ≤ 0x90 + len ∧ 0x90 + len ≤ 0x9f := by omega
    simp [decodeArrayLen, ha]
  · by_cases h2 : len < 65536
    · simp only [if_neg h1, if_pos h2, List.cons_append]
      norm_num [decodeArrayLen, readN_natToBeBytes]
      exact bytesToNat_natToBeBytes 2 len (by norm_num; omega)
    · simp only [if_neg h1, if_neg h2, List.cons_append]
      norm_num [decodeArrayLen, readN_natToBeBytes]
      exact bytesToNat_natToBeBytes 4 len (by norm_num at h ⊢; omega)

theorem encodeStr_head (s : List Nat) : ∃ h tl, encodeStr s = h :: tl ∧ h ≠ 0xc0 := by
  unfold encodeStr strHeader
  by_cases h1 : s.length < 32
  · exact ⟨0xa0 + s.length, s, by simp [h1], by omega⟩
  · by_cases h2 : s.length < 256
    · exact ⟨0xd9, s.length :: s, by simp [h1, h2], by omega⟩
    · by_cases h3 : s.length < 65536
      · exact ⟨0xda, natToBeBytes 2 s.length ++ s, by simp [h1, h2, h3], by omega⟩
      · exact ⟨0xdb, natToBeBytes 4 s.length ++ s, by simp [h1, h2, h3], by omega⟩

theorem decodeOpt_encodeOpt_none {α : Type} (dec : List Nat → Option (α × List Nat))
    (enc : α → List Nat) (rest : List Nat) :
    decodeOpt dec (encodeOpt enc (none : Option α) ++ rest) = some (none, rest) := by
  simp [encodeOpt, decodeOpt]

theorem decodeOpt_encodeOpt_some {α : Type} (dec : List Nat → Option (α × List Nat))
    (enc : α → List Nat) (v : α) (rest : List Nat)
    (hhead : ∃ h tl, enc v = h :: tl ∧ h ≠ 0xc0)
    (hdec : dec (enc v ++ rest) = some (v, rest)) :
    decodeOpt dec (encodeOpt enc (some v) ++ rest) = some (some v, rest) := by
  rcases hhead with ⟨h, tl, he, hne⟩
  show decodeOpt dec (enc v ++ rest) = some (some v, rest)
  rw [he, List.cons_append]
  simp only [decodeOpt, if_neg hne]
  rw [← List.cons_append, ← he, hdec]
  rfl

theorem decodeTaskType_encodeTaskType (v : TaskType) (rest : List Nat) :
    decodeTaskType (encodeTaskType v ++ rest) = some (v, rest) := by
  cases v with
  | Deadline =>
    unfold decodeTaskType encodeTaskType
    rw [decodeStr_encodeStr _ _ (by norm_num [taskTypeName])]
    simp [taskTypeName]
  | Repeated =>
    unfold decodeTaskType encodeTaskType
    rw [decodeStr_encodeStr _ _ (by norm_num [taskTypeName])]
    simp [taskTypeName]

theorem decodeRepeatType_encodeRepeatType (v : RepeatType) (rest : List Nat) :
    decodeRepeatType (encodeRepeatType v ++ rest) = some (v, rest) := by
  cases v with
  | Daily =>
    unfold decodeRepeatType encodeRepeatType
    rw [decodeStr_encodeStr _ _ (by norm_num [repeatTypeName])]
    simp [repeatTypeName]
  | Weekly =>
    unfold decodeRepeatType encodeRepeatType
    rw [decodeStr_encodeStr _ _ (by norm_num [repeatTypeName])]
    simp [repeatTypeName]
  | Monthly =>
    unfold decodeRepeatType encodeRepeatType
    rw [decodeStr_encodeStr _ _ (by norm_num [repeatTypeName])]
    simp [repeatTypeName]

theorem decodeListN_encodeListBody {α : Type} (dec : List Nat → Option (α × List Nat))
    (enc : α → List Nat) (l : List α) (rest : List Nat)
    (H : ∀ v ∈ l, ∀ r, dec (enc v ++ r) = some (v, r)) :
    decodeListN dec l.length (encodeListBody enc l ++ rest) = some (l, rest) := by
  induction l with
  | nil => simp [encodeListBody, decodeListN]
  | cons v vs ih =>
    simp only [encodeListBody, List.length_cons, decodeListN, List.append_assoc]
    rw [H v (List.mem_cons_self v vs) _]
    simp only [Option.some_bind]
    rw [ih (fun x hx r => H x (List.mem_cons_of_mem v hx) r)]
    rfl

/-! ## Well-formedness: the bounds Rust's types enforce on every value

Every in-memory Rust value of these types satisfies WF: identities are
128-bit, priorities are u32, strings and vectors are addressable (length
below 2^32 certainly holds for anything a real process stores), chrono
instants fit well inside 2^96 nanoseconds of magnitude, and a HashSet
iterates without duplicates.  The round-trip theorem is stated for all WF
aggregates, which covers every aggregate reachable through normal
construction. -/

/-- Uuid values are 128-bit. -/
def WFuuid (u : Nat) : Prop := u < 2 ^ 128

instance (u : Nat) : Decidable (WFuuid u) := inferInstanceAs (Decidable (u < 2 ^ 128))

/-- Rust String content: addressable length, byte values. -/
def WFstr (s : List Nat) : Prop := s.length < 2 ^ 32 ∧ ∀ b ∈ s, b < 256

instance (s : List Nat) : Decidable (WFstr s) := by unfold WFstr; infer_instance

/-- chrono instants are bounded (chrono caps years at about 262000, far
inside 2^96 nanoseconds). -/
def WFtimestamp (t : Int) : Prop := t.natAbs < 2 ^ 96

instance (t : Int) : Decidable (WFtimestamp t) :=
  inferInstanceAs (Decidable (t.natAbs < 2 ^ 96))

/-- Well-formedness of an optional due instant. -/
def WFdue : Option Int → Prop
  | none => True
  | some d => WFtimestamp d

instance (o : Option Int) : Decidable (WFdue o) :=
  match o with
  | none => Decidable.isTrue trivial
  | some d => inferInstanceAs (Decidable (WFtimestamp d))

/-- A dependency set: addressable, 128-bit members, no duplicates (a
HashSet iterates each element once). -/
def WFuuidList (l : List Nat) : Prop :=
  l.length < 2 ^ 32 ∧ (∀ d ∈ l, WFuuid d) ∧ l.Nodup

instance (l : List Nat) : Decidable (WFuuidList l) := by
  unfold WFuuidList; infer_instance

/-- Well-formedness of a Task value. -/
def WFtask (t : Task) : Prop :=
  WFuuid t.id ∧ t.priority < 2 ^ 32 ∧ WFtimestamp t.created ∧ WFdue t.due ∧
    WFstr t.content ∧ WFuuidList t.depends

instance (t : Task) : Decidable (WFtask t) := by unfold WFtask; infer_instance

/-- Well-formedness of a Note value. -/
def WFnote (n : Note) : Prop :=
  WFuuid n.id ∧ WFtimestamp n.created ∧ WFstr n.content

instance (n : Note) : Decidable (WFnote n) := by unfold WFnote; infer_instance

/-- Well-formedness of the task store. -/
def WFtasks (s : Tasks) : Prop :=
  WFuuid s.id ∧ WFstr s.group_name ∧ s.tasks.length < 2 ^ 32 ∧ ∀ t ∈ s.tasks, WFtask t

instance (s : Tasks) : Decidable (WFtasks s) := by unfold WFtasks; infer_instance

/-- Well-formedness of the note store. -/
def WFnotes (s : Notes) : Prop :=
  WFuuid s.id ∧ WFstr s.group_name ∧ s.notes.length < 2 ^ 32 ∧ ∀ n ∈ s.notes, WFnote n

instance (s : Notes) : Decidable (WFnotes s) := by unfold WFnotes; infer_instance

/-- Well-formedness of a Database aggregate. -/
def WFdb (d : Database) : Prop := WFtasks d.tasks ∧ WFnotes d.notes

instance (d : Database) : Decidable (WFdb d) := by unfold WFdb; infer_instance

/-! ## Struct round-trips -/

theorem decodeOpt_encodeOpt_ts (o : Option Int) (rest : List Nat) (h : WFdue o) :
    decodeOpt decodeTs (encodeOpt encodeTs o ++ rest) = some (o, rest) := by
  cases o with
  | none => exact decodeOpt_encodeOpt_none decodeTs encodeTs rest
  | some t =>
    exact decodeOpt_encodeOpt_some decodeTs encodeTs t rest
      (by unfold encodeTs; exact encodeStr_head _) (decodeTs_encodeTs t rest h)

theorem decodeOpt_encodeOpt_taskType (o : Option TaskType) (rest : List Nat) :
    decodeOpt decodeTaskType (encodeOpt encodeTaskType o ++ rest) = some (o, rest) := by
  cases o with
  | none => exact decodeOpt_encodeOpt_none decodeTaskType encodeTaskType rest
  | some v =>
    exact decodeOpt_encodeOpt_some decodeTaskType encodeTaskType v rest
      (by unfold encodeTaskType; exact encodeStr_head _)
      (decodeTaskType_encodeTaskType v rest)

theorem decodeOpt_encodeOpt_repeatType (o : Option RepeatType) (rest : List Nat) :
    decodeOpt decodeRepeatType (encodeOpt encodeRepeatType o ++ rest) = some (o, rest) := by
  cases o with
  | none => exact decodeOpt_encodeOpt_none decodeRepeatType encodeRepeatType rest
  | some v =>
    exact decodeOpt_encodeOpt_some decodeRepeatType encodeRepeatType v rest
      (by unfold encodeRepeatType; exact encodeStr_head _)
      (decodeRepeatType_encodeRepeatType v rest)

theorem decodeTask_encodeTask (t : Task) (rest : List Nat) (h : WFtask t) :
    decodeTask (encodeTask t ++ rest) = some (t, rest) := by
  obtain ⟨hid, hpri, hcr, hdue, hcont, hdep⟩ := h
  obtain ⟨hdlen, hdmem, hdnd⟩ := hdep
  unfold encodeTask decodeTask
  simp only [List.append_assoc]
  rw [decodeArrayLen_arrayHeader 8 _ (by norm_num)]
  simp only [Option.some_bind]
  norm_num
  rw [decodeUuid_encodeUuid t.id _ hid]
  simp only [Option.some_bind]
  rw [decodeUint_encodeUint t.priority _ (by norm_num at hpri ⊢; omega)]
  simp only [Option.some_bind]
  rw [decodeTs_encodeTs t.created _ hcr]
  simp only [Option.some_bind]
  rw [decodeOpt_encodeOpt_ts t.due _ hdue]
  simp only [Option.some_bind]
  rw [decodeStr_encodeStr t.content _ hcont.1]
  simp only [Option.some_bind]
  rw [decodeOpt_encodeOpt_taskType t.task_type _]
  simp only [Option.some_bind]
  rw [decodeOpt_encodeOpt_repeatType t.«repeat» _]
  simp only [Option.some_bind]
  rw [decodeArrayLen_arrayHeader t.depends.length _ hdlen]
  simp only [Option.some_bind]
  rw [decodeListN_encodeListBody decodeUuid encodeUuid t.depends rest
    (fun v hv r => decodeUuid_encodeUuid v r (hdmem v hv))]
  rfl

theorem decodeNote_encodeNote (n : Note) (rest : List Nat) (h : WFnote n) :
    decodeNote (encodeNote n ++ rest) = some (n, rest) := by
  obtain ⟨hid, hcr, hcont⟩ := h
  unfold encodeNote decodeNote
  simp only [List.append_assoc]
  rw [decodeArrayLen_arrayHeader 3 _ (by norm_num)]
  simp only [Option.some_bind]
  norm_num
  rw [decodeUuid_encodeUuid n.id _ hid]
  simp only [Option.some_bind]
  rw [decodeTs_encodeTs n.created _ hcr]
  simp only [Option.some_bind]
  rw [decodeStr_encodeStr n.content _ hcont.1]
  rfl

theorem decodeTasks_encodeTasks (s : Tasks) (rest : List Nat) (h : WFtasks s) :
    decodeTasks (encodeTasks s ++ rest) = some (s, rest) := by
  obtain ⟨hid, hgrp, hlen, hmem⟩ := h
  unfold encodeTasks decodeTasks
  simp only [List.append_assoc]
  rw [decodeArrayLen_arrayHeader 3 _ (by norm_num)]
  simp only [Option.some_bind]
  norm_num
  rw [decodeUuid_encodeUuid s.id _ hid]
  simp only [Option.some_bind]
  rw [decodeStr_encodeStr s.group_name _ hgrp.1]
  simp only [Option.some_bind]
  rw [decodeArrayLen_arrayHeader s.tasks.length _ hlen]
  simp only [Option.some_bind]
  rw [decodeListN_encodeListBody decodeTask encodeTask s.tasks rest
    (fun v hv r => decodeTask_encodeTask v r (hmem v hv))]
  rfl

theorem decodeNotes_encodeNotes (s : Notes) (rest : List Nat) (h : WFnotes s) :
    decodeNotes (encodeNotes s ++ rest) = some (s, rest) := by
  obtain ⟨hid, hgrp, hlen, hmem⟩ := h
  unfold encodeNotes decodeNotes
  simp only [List.append_assoc]
  rw [decodeArrayLen_arrayHeader 3 _ (by norm_num)]
  simp only [Option.some_bind]
  norm_num
  rw [decodeUuid_encodeUuid s.id _ hid]
  simp only [Option.some_bind]
  rw [decodeStr_encodeStr s.group_name _ hgrp.1]
  simp only [Option.some_bind]
  rw [decodeArrayLen_arrayHeader s.notes.length _ hlen]
  simp only [Option.some_bind]
  rw [decodeListN_encodeListBody decodeNote encodeNote s.notes rest
    (fun v hv r => decodeNote_encodeNote v r (hmem v hv))]
  rfl

/-- Parsing the encoding of a well-formed aggregate returns exactly the
aggregate and leaves any trailing bytes unread. -/
theorem decodeDatabase_encodeDatabase (d : Database) (rest : List Nat) (h : WFdb d) :
    decodeDatabase (encodeDatabase d ++ rest) = some (d, rest) := by
  obtain ⟨htasks, hnotes⟩ := h
  unfold encodeDatabase decodeDatabase
  simp only [List.append_assoc]
  rw [decodeArrayLen_arrayHeader 2 _ (by norm_num)]
  simp only [Option.some_bind]
  norm_num
  rw [decodeTasks_encodeTasks d.tasks _ htasks]
  simp only [Option.some_bind]
  rw [decodeNotes_encodeNotes d.notes _ hnotes]
  rfl

/-! ## Generic store operations on the underlying sequence

Tasks and Notes are the same container instantiated twice; the store
methods are definitionally these list operations applied to the sequence
field, which lets every store property be proved once. -/

/-- The sequence-level body of Tasks::add / Notes::add. -/
def listAdd (key : α → Nat) (l : List α) (x : α) : List α := sortByKey key (l ++ [x])

/-- The sequence-level body of get: binary search then Vec::get. -/
def listGet (key : α → Nat) (l : List α) (target : Nat) : Option α :=
  match binarySearchById key l target with
  | some index => l.get? index
  | none => none

/-- The sequence-level body of remove: binary search then Vec::remove. -/
def listRemove (key : α → Nat) (l : List α) (target : Nat) : List α :=
  match binarySearchById key l target with
  | some index => l.eraseIdx index
  | none => l

theorem tasksAdd_def (s : Tasks) (t : Task) :
    Tasks.add s t = { s with tasks := listAdd Task.id s.tasks t } := rfl

theorem notesAdd_def (s : Notes) (n : Note) :
    Notes.add s n = { s with notes := listAdd Note.id s.notes n } := rfl

theorem tasksRemove_def (s : Tasks) (i : Nat) :
    Tasks.remove s i = { s with tasks := listRemove Task.id s.tasks i } := by
  unfold Tasks.remove listRemove
  cases binarySearchById Task.id s.tasks i <;> rfl

theorem notesRemove_def (s : Notes) (i : Nat) :
    Notes.remove s i = { s with notes := listRemove Note.id s.notes i } := by
  unfold Notes.remove listRemove
  cases binarySearchById Note.id s.notes i <;> rfl

theorem Notes.get_note_def (s : Notes) (i : Nat) :
    Notes.get_note s i = listGet Note.id s.notes i := rfl

theorem Tasks.get_task_def (s : Tasks) (i : Nat) :
    Tasks.get_task s i = listGet Task.id s.tasks i := rfl

/-! ## Generic store lemmas -/

theorem listAdd_sorted (key : α → Nat) (l : List α) (x : α) :
    SortedLe key (listAdd key l x) := sortedLe_sortByKey key (l ++ [x])

theorem listAdd_perm (key : α → Nat) (l : List α) (x : α) :
    List.Perm (listAdd key l x) (x :: l) :=
  (perm_sortByKey key (l ++ [x])).trans (List.perm_append_singleton x l)

theorem listAdd_length (key : α → Nat) (l : List α) (x : α) :
    (listAdd key l x).length = l.length + 1 := by
  have := (listAdd_perm key l x).length_eq
  simpa using this

theorem list_decomp_at (l : List α) (i : Nat) (h : i < l.length) :
    l = l.take i ++ l.get ⟨i, h⟩ :: l.drop (i + 1) := by
  conv_lhs => rw [← List.take_append_drop i l]
  rw [List.get_eq_getElem]
  congr 1
  exact List.drop_eq_getElem_cons h

/-- A remove on an absent key is the identity, with no sortedness
assumption: the search can only answer with an index whose element
carries the key. -/
theorem listRemove_absent (key : α → Nat) (l : List α) (target : Nat)
    (h : target ∉ l.map key) : listRemove key l target = l := by
  unfold listRemove
  rw [binarySearchById_eq_none key l target h]

/-- A remove deletes at most one entry: either it is the identity, or the
sequence splits around one entry carrying the key and exactly that entry
disappears, order preserved. -/
theorem listRemove_cases (key : α → Nat) (l : List α) (target : Nat) :
    listRemove key l target = l ∨
      ∃ l1 x l2, l = l1 ++ x :: l2 ∧ key x = target ∧
        listRemove key l target = l1 ++ l2 := by
  unfold listRemove
  cases hbs : binarySearchById key l target with
  | none => exact Or.inl rfl
  | some i =>
    rcases binarySearchById_found key l target i hbs with ⟨hlt, hkey⟩
    refine Or.inr ⟨l.take i, l.get ⟨i, hlt⟩, l.drop (i + 1), list_decomp_at l i hlt, hkey, ?_⟩
    exact List.eraseIdx_eq_take_drop_succ l i

/-- On a sorted sequence a present key is really removed: the sequence
splits around an entry carrying the key, and the result drops exactly
that entry. -/
theorem listRemove_present (key : α → Nat) (l : List α) (target : Nat)
    (hs : SortedLe key l) (hmem : target ∈ l.map key) :
    ∃ l1 x l2, l = l1 ++ x :: l2 ∧ key x = target ∧
      listRemove key l target = l1 ++ l2 := by
  rcases binarySearchById_finds key l target hs hmem with ⟨i, hbs⟩
  rcases binarySearchById_found key l target i hbs with ⟨hlt, hkey⟩
  refine ⟨l.take i, l.get ⟨i, hlt⟩, l.drop (i + 1), list_decomp_at l i hlt, hkey, ?_⟩
  unfold listRemove
  rw [hbs]
  exact List.eraseIdx_eq_take_drop_succ l i

/-- After adding a record with a fresh key to a sorted sequence, lookup
of that key returns exactly the added record. -/
theorem listGet_add_fresh (key : α → Nat) (l : List α) (x : α)
    (hfresh : key x ∉ l.map key) :
    listGet key (listAdd key l x) (key x) = some x := by
  have hperm := listAdd_perm key l x
  have hmem : key x ∈ (listAdd key l x).map key :=
    List.mem_map.2 ⟨x, hperm.mem_iff.2 (List.mem_cons_self x l), rfl⟩
  rcases binarySearchById_finds key (listAdd key l x) (key x)
    (listAdd_sorted key l x) hmem with ⟨i, hbs⟩
  rcases binarySearchById_found key (listAdd key l x) (key x) i hbs with ⟨hlt, hkey⟩
  unfold listGet
  rw [hbs]
  show (listAdd key l x).get? i = some x
  rw [List.get?_eq_get hlt]
  congr 1
  have hmem2 : (listAdd key l x).get ⟨i, hlt⟩ ∈ x :: l :=
    hperm.mem_iff.1 (List.get_mem _ i hlt)
  rcases List.mem_cons.1 hmem2 with he | hin
  · exact he
  · exact absurd (List.mem_map.2 ⟨_, hin, hkey⟩) hfresh

/-- After adding a record with a fresh key to a sorted sequence, removing
that key restores a permutation of the original sequence; in particular a
subsequent lookup of the key misses. -/
theorem listRemove_add_fresh (key : α → Nat) (l : List α) (x : α)
    (hfresh : key x ∉ l.map key) :
    List.Perm (listRemove key (listAdd key l x) (key x)) l ∧
      listGet key (listRemove key (listAdd key l x) (key x)) (key x) = none := by
  have hperm := listAdd_perm key l x
  have hmem : key x ∈ (listAdd key l x).map key :=
    List.mem_map.2 ⟨x, hperm.mem_iff.2 (List.mem_cons_self x l), rfl⟩
  rcases listRemove_present key (listAdd key l x) (key x)
    (listAdd_sorted key l x) hmem with ⟨l1, y, l2, hsplit, hkey, hres⟩
  have hy : y = x := by
    have hymem : y ∈ x :: l := by
      refine hperm.mem_iff.1 ?_
      rw [hsplit]
      exact List.mem_append.2 (Or.inr (List.mem_cons_self y l2))
    rcases List.mem_cons.1 hymem with he | hin
    · exact he
    · exact absurd (List.mem_map.2 ⟨_, hin, hkey⟩) hfresh
  have hcancel : List.Perm (l1 ++ l2) l := by
    have h1 : List.Perm (listAdd key l x) (x :: (l1 ++ l2)) := by
      rw [hsplit, hy]
      exact List.perm_middle
    exact (h1.symm.trans hperm).cons_inv
  constructor
  · rw [hres]; exact hcancel
  · rw [hres]
    unfold listGet
    rw [binarySearchById_eq_none key (l1 ++ l2) (key x) ?_]
    intro hc
    rcases List.mem_map.1 hc with ⟨z, hz, hzkey⟩
    have : z ∈ l := hcancel.mem_iff.1 hz
    exact hfresh (List.mem_map.2 ⟨z, this, hzkey⟩)

/-- Stability of a duplicate insert: on a sorted sequence holding exactly
one entry with the new record's key, the new record lands immediately
after the old entry. -/
theorem listAdd_duplicate (key : α → Nat) (r old : α) (l1 l2 : List α)
    (hs : SortedLe key (l1 ++ old :: l2)) (hold : key old = key r)
    (h1 : ∀ z ∈ l1, key z ≠ key r) (h2 : ∀ z ∈ l2, key z ≠ key r) :
    listAdd key (l1 ++ old :: l2) r = l1 ++ old :: r :: l2 := by
  unfold listAdd
  rw [sortByKey_append_singleton key r (l1 ++ old :: l2) hs]
  refine insertLast_decomp key r old l1 l2 ?_ hold ?_
  · intro z hz
    have hzo : key z ≤ key old := by
      have := List.pairwise_append.1 hs
      exact this.2.2 z hz old (List.mem_cons_self old l2)
    have := h1 z hz
    omega
  · intro z hz
    have : key old ≤ key z := by
      have hpair := List.pairwise_append.1 hs
      have := List.pairwise_cons.1 hpair.2.1
      exact this.1 z hz
    have := h2 z hz
    omega

/-! ## Folding adds over a fresh store -/

theorem foldl_listAdd_sorted (key : α → Nat) (rs : List α) :
    ∀ init : List α, SortedLe key init → SortedLe key (rs.foldl (listAdd key) init) := by
  induction rs with
  | nil => intro init h; exact h
  | cons r rs ih =>
    intro init _
    exact ih (listAdd key init r) (listAdd_sorted key init r)

theorem foldl_listAdd_perm (key : α → Nat) (rs : List α) :
    ∀ init : List α, List.Perm (rs.foldl (listAdd key) init) (init ++ rs) := by
  induction rs with
  | nil => intro init; simp
  | cons r rs ih =>
    intro init
    refine (ih (listAdd key init r)).trans ?_
    have h1 : List.Perm (listAdd key init r ++ rs) ((r :: init) ++ rs) :=
      (listAdd_perm key init r).append_right rs
    refine h1.trans ?_
    have h2 : List.Perm ((r :: init) ++ rs) (init ++ (r :: rs)) := by
      simp only [List.cons_append]
      exact (List.perm_middle).symm
    exact h2

theorem foldl_tasks_add (rs : List Task) :
    ∀ s : Tasks, (rs.foldl Tasks.add s).tasks = rs.foldl (listAdd Task.id) s.tasks := by
  induction rs with
  | nil => intro s; rfl
  | cons r rs ih =>
    intro s
    simp only [List.foldl_cons]
    rw [ih (Tasks.add s r)]
    rfl

theorem foldl_notes_add (ns : List Note) :
    ∀ s : Notes, (ns.foldl Notes.add s).notes = ns.foldl (listAdd Note.id) s.notes := by
  induction ns with
  | nil => intro s; rfl
  | cons n ns ih =>
    intro s
    simp only [List.foldl_cons]
    rw [ih (Notes.add s n)]
    rfl

/-! ## Field-for-field equality of aggregates

Rust PartialEq on Task compares identities only, and HashSet equality is
set equality; field-for-field equality in the sense of the spec compares
every stored attribute, with the dependency set compared by membership
(order-independent).  The in-memory iteration order is deliberately NOT
part of this relation: it is unobservable field by field. -/

/-- Field-for-field equality of Tasks: all scalar fields equal and the
dependency sets equal as sets. -/
def Task.fieldEq (a b : Task) : Prop :=
  a.id = b.id ∧ a.priority = b.priority ∧ a.created = b.created ∧ a.due = b.due ∧
    a.content = b.content ∧ a.task_type = b.task_type ∧ a.«repeat» = b.«repeat» ∧
    (∀ x ∈ a.depends, x ∈ b.depends) ∧ (∀ x ∈ b.depends, x ∈ a.depends)

instance (a b : Task) : Decidable (Task.fieldEq a b) := by
  unfold Task.fieldEq; infer_instance

/-- Field-for-field equality of the task stores: equal identity, group
name and task sequences pointwise field-for-field equal. -/
def Tasks.fieldEq (A B : Tasks) : Prop :=
  A.id = B.id ∧ A.group_name = B.group_name ∧ A.tasks.length = B.tasks.length ∧
    ∀ p ∈ A.tasks.zip B.tasks, Task.fieldEq p.1 p.2

instance (A B : Tasks) : Decidable (Tasks.fieldEq A B) := by
  unfold Tasks.fieldEq; infer_instance

/-- Field-for-field equality of aggregates (Notes have no set-valued
field, so their comparison is plain equality). -/
def Database.fieldEq (A B : Database) : Prop :=
  Tasks.fieldEq A.tasks B.tasks ∧ A.notes = B.notes

instance (A B : Database) : Decidable (Database.fieldEq A B) := by
  unfold Database.fieldEq; infer_instance

/-- Mutually contained lists are equal when one has at most one element
and the other has no duplicates. -/
theorem eq_of_mutual_mem_nodup (la lb : List Nat)
    (hab : ∀ x ∈ la, x ∈ lb) (hba : ∀ x ∈ lb, x ∈ la)
    (hnd : lb.Nodup) (hlen : la.length ≤ 1) : lb = la := by
  cases la with
  | nil =>
    rw [List.eq_nil_iff_forall_not_mem]
    intro z hz
    exact absurd (hba z hz) (List.not_mem_nil z)
  | cons a la' =>
    have hla' : la' = [] := by
      cases la' with
      | nil => rfl
      | cons b lb' => simp at hlen
    subst hla'
    cases lb with
    | nil => exact absurd (hab a (List.mem_cons_self a [])) (List.not_mem_nil a)
    | cons c lc =>
      have hc : c = a := by
        have := hba c (List.mem_cons_self c lc)
        simpa using this
      subst hc
      have hlc : lc = [] := by
        rw [List.eq_nil_iff_forall_not_mem]
        intro z hz
        have hza : z = c := by simpa using hba z (List.mem_cons_of_mem _ hz)
        rcases List.nodup_cons.1 hnd with ⟨hnotin, _⟩
        exact hnotin (hza ▸ hz)
      subst hlc
      rfl

/-- With at most one dependency, field-for-field equal tasks are equal
outright (the iteration order of a set of at most one element is
determined). -/
theorem task_eq_of_fieldEq_one_dep (a b : Task) (hfe : Task.fieldEq a b)
    (hnd : b.depends.Nodup) (hlen : a.depends.length ≤ 1) : a = b := by
  obtain ⟨h1, h2, h3, h4, h5, h6, h7, h8, h9⟩ := hfe
  have hdep : b.depends = a.depends := eq_of_mutual_mem_nodup a.depends b.depends h8 h9 hnd hlen
  cases a with
  | mk aid apri acr adu aco att arp adep =>
    cases b with
    | mk bid bpri bcr bdu bco btt brp bdep =>
      dsimp at h1 h2 h3 h4 h5 h6 h7 hdep
      subst h1; subst h2; subst h3; subst h4; subst h5; subst h6; subst h7; subst hdep
      rfl

theorem list_eq_of_zip_eq {β : Type} (la : List β) :
    ∀ lb : List β, la.length = lb.length → (∀ p ∈ la.zip lb, p.1 = p.2) → la = lb := by
  induction la with
  | nil =>
    intro lb hlen _
    cases lb with
    | nil => rfl
    | cons b lb' => simp at hlen
  | cons a la' ih =>
    intro lb hlen hzip
    cases lb with
    | nil => simp at hlen
    | cons b lb' =>
      have hab : a = b := hzip (a, b) (by simp)
      have htl : la' = lb' := by
        refine ih lb' (by simpa using hlen) ?_
        intro p hp
        exact hzip p (by simp [hp])
      rw [hab, htl]

/-! ## Claim theorems -/

/-- C1: decoding the bytes produced by encoding a Database aggregate
yields an aggregate field-for-field equal to the original -- identity
values, timestamps, optional-field presence, dependency set membership
and Record sequence order included.  Proved as exact structural equality,
which subsumes field-for-field equality, for every well-formed aggregate;
well-formedness (WFdb) is the set of bounds Rust's types put on every
in-memory value, so it covers every aggregate reachable through normal
construction (any mix of add / remove / add_dependency on a fresh or
decoded aggregate). -/
theorem C1_encode_decode_roundtrip (d : Database) (h : WFdb d) :
    Database.deserialize_msgpack (Database.serialize_msgpack d) = Except.ok d := by
  have hdec : decodeDatabase (encodeDatabase d) = some (d, []) := by
    have := decodeDatabase_encodeDatabase d [] h
    rwa [List.append_nil] at this
  unfold Database.deserialize_msgpack Database.serialize_msgpack
  rw [hdec]

/-- Witness for C1 at a concrete aggregate exercising both stores, both
optional-field polarities, a negative timestamp and a two-element
dependency set. -/
theorem C1_encode_decode_roundtrip_witness :
    WFdb ⟨⟨10, rootBytes, [⟨1, 3, 5, some (-7), [104, 105], some TaskType.Deadline,
        some RepeatType.Daily, [2, 3]⟩, ⟨4, 0, 0, none, [], none, none, []⟩]⟩,
      ⟨11, rootBytes, [⟨9, 100, [97]⟩]⟩⟩ ∧
    Database.deserialize_msgpack (Database.serialize_msgpack
      ⟨⟨10, rootBytes, [⟨1, 3, 5, some (-7), [104, 105], some TaskType.Deadline,
          some RepeatType.Daily, [2, 3]⟩, ⟨4, 0, 0, none, [], none, none, []⟩]⟩,
        ⟨11, rootBytes, [⟨9, 100, [97]⟩]⟩⟩) =
      Except.ok ⟨⟨10, rootBytes, [⟨1, 3, 5, some (-7), [104, 105], some TaskType.Deadline,
          some RepeatType.Daily, [2, 3]⟩, ⟨4, 0, 0, none, [], none, none, []⟩]⟩,
        ⟨11, rootBytes, [⟨9, 100, [97]⟩]⟩⟩ :=
  ⟨by decide, C1_encode_decode_roundtrip _ (by decide)⟩

/-- C2 (amended): after any sequence of adds on a fresh store the
sequence returned by get_all is in ascending identity order, and it is
STRICTLY ascending (hence duplicate-free) whenever the added records
carry pairwise distinct identities.  The unconditional strictness stated
by the claim fails because add keeps records with duplicate identities
(see the counterexample and C9). -/
theorem C2_sorted_after_adds (uid : Nat) (rs : List Task) (nuid : Nat) (ns : List Note) :
    (SortedLe Task.id (Tasks.get_tasks (rs.foldl Tasks.add (Tasks.new uid))) ∧
      ((rs.map Task.id).Nodup →
        SortedLt Task.id (Tasks.get_tasks (rs.foldl Tasks.add (Tasks.new uid))))) ∧
    (SortedLe Note.id (Notes.get_notes (ns.foldl Notes.add (Notes.newStore nuid))) ∧
      ((ns.map Note.id).Nodup →
        SortedLt Note.id (Notes.get_notes (ns.foldl Notes.add (Notes.newStore nuid))))) := by
  have htasks : (rs.foldl Tasks.add (Tasks.new uid)).tasks = rs.foldl (listAdd Task.id) [] :=
    foldl_tasks_add rs (Tasks.new uid)
  have hnotes : (ns.foldl Notes.add (Notes.newStore nuid)).notes = ns.foldl (listAdd Note.id) [] :=
    foldl_notes_add ns (Notes.newStore nuid)
  constructor
  · constructor
    · show SortedLe Task.id (rs.foldl Tasks.add (Tasks.new uid)).tasks
      rw [htasks]
      exact foldl_listAdd_sorted Task.id rs [] (List.Pairwise.nil)
    · intro hnd
      show SortedLt Task.id (rs.foldl Tasks.add (Tasks.new uid)).tasks
      rw [htasks]
      refine sortedLt_of_sortedLe_nodup Task.id _
        (foldl_listAdd_sorted Task.id rs [] (List.Pairwise.nil)) ?_
      have hperm : List.Perm (rs.foldl (listAdd Task.id) []) rs := by
        simpa using foldl_listAdd_perm Task.id rs []
      exact ((hperm.map Task.id).nodup_iff).2 hnd
  · constructor
    · show SortedLe Note.id (ns.foldl Notes.add (Notes.newStore nuid)).notes
      rw [hnotes]
      exact foldl_listAdd_sorted Note.id ns [] (List.Pairwise.nil)
    · intro hnd
      show SortedLt Note.id (ns.foldl Notes.add (Notes.newStore nuid)).notes
      rw [hnotes]
      refine sortedLt_of_sortedLe_nodup Note.id _
        (foldl_listAdd_sorted Note.id ns [] (List.Pairwise.nil)) ?_
      have hperm : List.Perm (ns.foldl (listAdd Note.id) []) ns := by
        simpa using foldl_listAdd_perm Note.id ns []
      exact ((hperm.map Note.id).nodup_iff).2 hnd

/-- Counterexample to C2 as stated: adding two records with the same
identity to a fresh note store leaves get_all NOT strictly ascending (the
duplicate is retained, violating "hence contains no duplicate
identities"). -/
theorem C2_counterexample :
    ¬ SortedLt Note.id (Notes.get_notes
      (List.foldl Notes.add (Notes.newStore 0) [⟨1, 0, []⟩, ⟨1, 0, []⟩])) := by
  decide

/-- Witness for C2 at concrete inputs: two distinct-identity records
added out of order to each kind of fresh store come back strictly
sorted. -/
theorem C2_sorted_after_adds_witness :
    (([⟨3, 0, 0, none, [], none, none, []⟩, ⟨1, 0, 0, none, [], none, none, []⟩].map
        Task.id).Nodup ∧
      SortedLt Task.id (Tasks.get_tasks (List.foldl Tasks.add (Tasks.new 7)
        [⟨3, 0, 0, none, [], none, none, []⟩, ⟨1, 0, 0, none, [], none, none, []⟩]))) ∧
    (([⟨2, 0, []⟩, ⟨1, 0, []⟩].map Note.id).Nodup ∧
      SortedLt Note.id (Notes.get_notes (List.foldl Notes.add (Notes.newStore 7)
        [⟨2, 0, []⟩, ⟨1, 0, []⟩]))) :=
  ⟨⟨by decide,
      (C2_sorted_after_adds 7 [⟨3, 0, 0, none, [], none, none, []⟩,
        ⟨1, 0, 0, none, [], none, none, []⟩] 7 [⟨2, 0, []⟩, ⟨1, 0, []⟩]).1.2 (by decide)⟩,
    ⟨by decide,
      (C2_sorted_after_adds 7 [⟨3, 0, 0, none, [], none, none, []⟩,
        ⟨1, 0, 0, none, [], none, none, []⟩] 7 [⟨2, 0, []⟩, ⟨1, 0, []⟩]).2.2 (by decide)⟩⟩

/-- C3 (amended): when the added record's identity is not already in the
store, lookup after add returns exactly the added record, and lookup
after a subsequent remove of that identity misses; get is a pure
function of the store (it is embedded as one).  The freshness hypothesis
is forced by the counterexample: with a same-identity record already
present, remove deletes only one of the two copies and the lookup still
hits.  The note store's get is Notes::get_note; the task store has no
get under src/, so its half is settled against Tasks.get_task, modelled
from the spec (see its definition). -/
theorem C3_lookup_correct :
    (∀ (s : Notes) (r : Note), r.id ∉ s.notes.map Note.id →
      Notes.get_note (Notes.add s r) r.id = some r ∧
      Notes.get_note (Notes.remove (Notes.add s r) r.id) r.id = none) ∧
    (∀ (s : Tasks) (r : Task), r.id ∉ s.tasks.map Task.id →
      Tasks.get_task (Tasks.add s r) r.id = some r ∧
      Tasks.get_task (Tasks.remove (Tasks.add s r) r.id) r.id = none) := by
  constructor
  · intro s r hfresh
    constructor
    · rw [notesAdd_def, Notes.get_note_def]
      exact listGet_add_fresh Note.id s.notes r hfresh
    · rw [notesAdd_def, notesRemove_def, Notes.get_note_def]
      exact (listRemove_add_fresh Note.id s.notes r hfresh).2
  · intro s r hfresh
    constructor
    · rw [tasksAdd_def, Tasks.get_task_def]
      exact listGet_add_fresh Task.id s.tasks r hfresh
    · rw [tasksAdd_def, tasksRemove_def, Tasks.get_task_def]
      exact (listRemove_add_fresh Task.id s.tasks r hfresh).2

/-- Counterexample to C3 as stated: in a store already holding a record
with the same identity (reachable via duplicate adds, see C9), adding r
then removing r.id deletes only one of the two copies, so the final
lookup still returns a record instead of not-found. -/
theorem C3_counterexample :
    ¬ ((Notes.get_note (Notes.add ⟨0, rootBytes, [⟨5, 0, [110]⟩]⟩ ⟨5, 1, [109]⟩)
          (5 : Nat) = some ⟨5, 1, [109]⟩) ∧
       (Notes.get_note (Notes.remove
          (Notes.add ⟨0, rootBytes, [⟨5, 0, [110]⟩]⟩ ⟨5, 1, [109]⟩) (5 : Nat))
          (5 : Nat) = none)) := by
  decide

/-- Witness for C3 at a concrete store and fresh record, both store
kinds. -/
theorem C3_lookup_correct_witness :
    ((5 : Nat) ∉ ([⟨1, 0, []⟩] : List Note).map Note.id ∧
      Notes.get_note (Notes.add ⟨0, rootBytes, [⟨1, 0, []⟩]⟩ ⟨5, 2, [120]⟩) 5 =
        some ⟨5, 2, [120]⟩ ∧
      Notes.get_note (Notes.remove
        (Notes.add ⟨0, rootBytes, [⟨1, 0, []⟩]⟩ ⟨5, 2, [120]⟩) 5) 5 = none) ∧
    ((5 : Nat) ∉ ([⟨1, 0, 0, none, [], none, none, []⟩] : List Task).map Task.id ∧
      Tasks.get_task (Tasks.add ⟨0, rootBytes, [⟨1, 0, 0, none, [], none, none, []⟩]⟩
        ⟨5, 2, 3, none, [120], none, none, []⟩) 5 =
        some ⟨5, 2, 3, none, [120], none, none, []⟩ ∧
      Tasks.get_task (Tasks.remove (Tasks.add ⟨0, rootBytes,
        [⟨1, 0, 0, none, [], none, none, []⟩]⟩
        ⟨5, 2, 3, none, [120], none, none, []⟩) 5) 5 = none) :=
  ⟨⟨by decide,
      (C3_lookup_correct.1 ⟨0, rootBytes, [⟨1, 0, []⟩]⟩ ⟨5, 2, [120]⟩ (by decide)).1,
      (C3_lookup_correct.1 ⟨0, rootBytes, [⟨1, 0, []⟩]⟩ ⟨5, 2, [120]⟩ (by decide)).2⟩,
    ⟨by decide,
      (C3_lookup_correct.2 ⟨0, rootBytes, [⟨1, 0, 0, none, [], none, none, []⟩]⟩
        ⟨5, 2, 3, none, [120], none, none, []⟩ (by decide)).1,
      (C3_lookup_correct.2 ⟨0, rootBytes, [⟨1, 0, 0, none, [], none, none, []⟩]⟩
        ⟨5, 2, 3, none, [120], none, none, []⟩ (by decide)).2⟩⟩

/-- C4: removing an identity that is not present leaves the store
exactly as it was -- the whole store value is unchanged, so get_all
returns the same sequence; remove is total, so no error is possible.
No sortedness assumption is needed: the search can only answer with an
index whose element carries the key. -/
theorem C4_remove_absent :
    (∀ (s : Tasks) (i : Nat), i ∉ s.tasks.map Task.id → Tasks.remove s i = s) ∧
    (∀ (s : Notes) (i : Nat), i ∉ s.notes.map Note.id → Notes.remove s i = s) := by
  constructor
  · intro s i h
    rw [tasksRemove_def, listRemove_absent Task.id s.tasks i h]
  · intro s i h
    rw [notesRemove_def, listRemove_absent Note.id s.notes i h]

/-- Witness for C4: removing an absent identity from concrete stores of
each kind is the identity. -/
theorem C4_remove_absent_witness :
    ((9 : Nat) ∉ ([⟨1, 0, 0, none, [], none, none, []⟩] : List Task).map Task.id ∧
      Tasks.remove ⟨0, rootBytes, [⟨1, 0, 0, none, [], none, none, []⟩]⟩ 9 =
        ⟨0, rootBytes, [⟨1, 0, 0, none, [], none, none, []⟩]⟩) ∧
    ((9 : Nat) ∉ ([⟨1, 0, []⟩] : List Note).map Note.id ∧
      Notes.remove ⟨0, rootBytes, [⟨1, 0, []⟩]⟩ 9 = ⟨0, rootBytes, [⟨1, 0, []⟩]⟩) :=
  ⟨⟨by decide, C4_remove_absent.1 ⟨0, rootBytes, [⟨1, 0, 0, none, [], none, none, []⟩]⟩ 9
      (by decide)⟩,
    ⟨by decide, C4_remove_absent.2 ⟨0, rootBytes, [⟨1, 0, []⟩]⟩ 9 (by decide)⟩⟩

/-- C5 (amended): encode is a function of the in-memory aggregate, so
the same aggregate always encodes to identical bytes; and two
field-for-field equal well-formed aggregates encode identically whenever
every task carries at most one dependency (a set of at most one element
has only one iteration order).  The unconditional claim fails: with two
or more dependencies the byte output follows the HashSet iteration
order, which is not determined by field-for-field equality -- see the
counterexample. -/
theorem C5_encode_deterministic_amended (A B : Database) (hA : WFdb A) (hB : WFdb B)
    (hfe : Database.fieldEq A B) (hdep : ∀ t ∈ A.tasks.tasks, t.depends.length ≤ 1) :
    Database.serialize_msgpack A = Database.serialize_msgpack B := by
  suffices h : A = B by rw [h]
  obtain ⟨⟨hid, hgrp, hlen, hzip⟩, hnotes⟩ := hfe
  have htasks : A.tasks.tasks = B.tasks.tasks := by
    refine list_eq_of_zip_eq A.tasks.tasks B.tasks.tasks hlen ?_
    intro p hp
    have hmem := List.of_mem_zip (show (p.1, p.2) ∈ A.tasks.tasks.zip B.tasks.tasks from hp)
    have hnd : p.2.depends.Nodup := ((hB.1.2.2.2 p.2 hmem.2).2.2.2.2.2).2.2
    exact task_eq_of_fieldEq_one_dep p.1 p.2 (hzip p hp) hnd (hdep p.1 hmem.1)
  cases A with
  | mk At An =>
    cases B with
    | mk Bt Bn =>
      cases At with
      | mk Aid Agrp Atl =>
        cases Bt with
        | mk Bid Bgrp Btl =>
          dsimp at hid hgrp htasks hnotes
          subst hid; subst hgrp; subst htasks; subst hnotes
          rfl

/-- Counterexample to C5 as stated: two field-for-field equal aggregates
whose single task holds the dependency set {2, 3} in the two possible
iteration orders (both orders are reached by issuing the two
add_dependency calls in opposite orders) encode to different byte
sequences. -/
theorem C5_counterexample :
    Database.fieldEq
      ⟨⟨0, rootBytes, [⟨1, 0, 0, none, [], none, none, [2, 3]⟩]⟩, ⟨4, rootBytes, []⟩⟩
      ⟨⟨0, rootBytes, [⟨1, 0, 0, none, [], none, none, [3, 2]⟩]⟩, ⟨4, rootBytes, []⟩⟩ ∧
    Database.serialize_msgpack
      ⟨⟨0, rootBytes, [⟨1, 0, 0, none, [], none, none, [2, 3]⟩]⟩, ⟨4, rootBytes, []⟩⟩ ≠
    Database.serialize_msgpack
      ⟨⟨0, rootBytes, [⟨1, 0, 0, none, [], none, none, [3, 2]⟩]⟩, ⟨4, rootBytes, []⟩⟩ := by
  constructor
  · decide
  · decide

/-- Witness for C5 at a concrete pair: the same one-dependency aggregate
on both sides. -/
theorem C5_encode_deterministic_amended_witness :
    WFdb ⟨⟨0, rootBytes, [⟨1, 0, 0, none, [], none, none, [2]⟩]⟩, ⟨4, rootBytes, []⟩⟩ ∧
    Database.fieldEq
      ⟨⟨0, rootBytes, [⟨1, 0, 0, none, [], none, none, [2]⟩]⟩, ⟨4, rootBytes, []⟩⟩
      ⟨⟨0, rootBytes, [⟨1, 0, 0, none, [], none, none, [2]⟩]⟩, ⟨4, rootBytes, []⟩⟩ ∧
    Database.serialize_msgpack
      ⟨⟨0, rootBytes, [⟨1, 0, 0, none, [], none, none, [2]⟩]⟩, ⟨4, rootBytes, []⟩⟩ =
    Database.serialize_msgpack
      ⟨⟨0, rootBytes, [⟨1, 0, 0, none, [], none, none, [2]⟩]⟩, ⟨4, rootBytes, []⟩⟩ :=
  ⟨by decide, by decide,
    C5_encode_deterministic_amended _ _ (by decide) (by decide) (by decide) (by decide)⟩

/-- Every encoded aggregate opens with the fixarray(2) marker 0x92; used
to exhibit byte strings outside the image of encode. -/
theorem serialize_msgpack_head (d : Database) :
    ∃ tl, Database.serialize_msgpack d = 0x92 :: tl := by
  refine ⟨encodeTasks d.tasks ++ encodeNotes d.notes, ?_⟩
  unfold Database.serialize_msgpack encodeDatabase arrayHeader
  norm_num

/-- C6 (amended): load on a missing path yields NotFound, distinguished
from the DecodeFault (ErrorKind Other) yielded when the file exists but
its bytes do not parse; bytes that do not parse as a msgpack Database
value are rejected.  The claim's final clause -- that EVERY byte string
not produced by this codec fails -- is refuted by the counterexample:
the decoder also accepts alternative msgpack header encodings (and
ignores trailing bytes), which encode never emits. -/
theorem C6_from_disk_errors (fs : FileSys) (p : String) :
    (FileSys.lookup fs p = none → Database.from_disk fs p = Except.error IOErr.notFound) ∧
    (FileSys.lookup fs p = some [0xc1] →
      Database.from_disk fs p = Except.error (IOErr.other ("Deserialization failed"))) ∧
    IOErr.notFound ≠ IOErr.other ("Deserialization failed") := by
  refine ⟨?_, ?_, by simp⟩
  · intro h
    unfold Database.from_disk read_from_disk
    rw [h]
  · intro h
    unfold Database.from_disk read_from_disk
    rw [h]
    rfl

/-- Counterexample to C6's final clause: a byte string that encode can
never produce (it opens with an array16 header, encode always emits
fixarray) which nevertheless decodes to an aggregate. -/
theorem C6_counterexample :
    (∀ d : Database, Database.serialize_msgpack d ≠
      0xdc :: 0 :: 2 :: (encodeTasks ⟨0, rootBytes, []⟩ ++ encodeNotes ⟨1, rootBytes, []⟩)) ∧
    Database.deserialize_msgpack
      (0xdc :: 0 :: 2 :: (encodeTasks ⟨0, rootBytes, []⟩ ++ encodeNotes ⟨1, rootBytes, []⟩)) =
      Except.ok ⟨⟨0, rootBytes, []⟩, ⟨1, rootBytes, []⟩⟩ := by
  constructor
  · intro d hd
    rcases serialize_msgpack_head d with ⟨tl, htl⟩
    rw [htl] at hd
    simp at hd
  · decide

/-- Witness for C6 on a concrete file system: a missing path gives
NotFound, a present-but-corrupt file gives the decode fault, and the two
errors differ. -/
theorem C6_from_disk_errors_witness :
    (FileSys.lookup ([] : FileSys) "regia.db" = none ∧
      Database.from_disk ([] : FileSys) "regia.db" = Except.error IOErr.notFound) ∧
    (FileSys.lookup ([("regia.db", [0xc1])] : FileSys) "regia.db" = some [0xc1] ∧
      Database.from_disk ([("regia.db", [0xc1])] : FileSys) "regia.db" =
        Except.error (IOErr.other ("Deserialization failed"))) ∧
    IOErr.notFound ≠ IOErr.other ("Deserialization failed") :=
  ⟨⟨by decide, (C6_from_disk_errors ([] : FileSys) "regia.db").1 (by decide)⟩,
    ⟨by decide, (C6_from_disk_errors ([("regia.db", [0xc1])] : FileSys) "regia.db").2.1
      (by decide)⟩,
    (C6_from_disk_errors ([] : FileSys) "regia.db").2.2⟩

/-- C7: add_dependency is idempotent -- inserting the same identity a
second time leaves the task (dependency set included) exactly as after
the first insert -- and no validation is performed: the insert succeeds
and records the identity for ANY argument, dangling or not, since the
operation never consults any store. -/
theorem C7_add_dependency_idempotent (t : Task) (x : Nat) :
    Task.add_dependency (Task.add_dependency t x) x = Task.add_dependency t x ∧
      x ∈ (Task.add_dependency t x).depends := by
  constructor
  · by_cases h : x ∈ t.depends
    · simp [Task.add_dependency, h]
    · simp [Task.add_dependency, h]
  · by_cases h : x ∈ t.depends
    · simp [Task.add_dependency, h]
    · simp [Task.add_dependency, h]

/-- C8: add_dependency mutates nothing but the dependency set -- the
identity, priority, creation and due timestamps, content, classification
tag and repetition period are untouched -- and the dependency set only
grows (the old set is contained in the new one). -/
theorem C8_add_dependency_frame (t : Task) (x : Nat) :
    (Task.add_dependency t x).id = t.id ∧
    (Task.add_dependency t x).priority = t.priority ∧
    (Task.add_dependency t x).created = t.created ∧
    (Task.add_dependency t x).due = t.due ∧
    (Task.add_dependency t x).content = t.content ∧
    (Task.add_dependency t x).task_type = t.task_type ∧
    (Task.add_dependency t x).«repeat» = t.«repeat» ∧
    (∀ y ∈ t.depends, y ∈ (Task.add_dependency t x).depends) := by
  unfold Task.add_dependency
  by_cases h : x ∈ t.depends
  · simp [h]
  · simp only [if_neg h]
    refine ⟨trivial, trivial, trivial, trivial, trivial, trivial, trivial, ?_⟩
    intro y hy
    exact List.mem_append_left _ hy

/-- C9: adding a record whose identity already occurs (exactly once) in
a sorted store retains both records: the length grows by one, and the
stable sort leaves the two equal-identity records adjacent with the
pre-existing one first.  The length conjuncts hold for every store and
record unconditionally. -/
theorem C9_duplicate_add_retains_both :
    (∀ (s : Tasks) (r : Task), (Tasks.add s r).tasks.length = s.tasks.length + 1) ∧
    (∀ (s : Notes) (r : Note), (Notes.add s r).notes.length = s.notes.length + 1) ∧
    (∀ (s : Tasks) (r old : Task) (l1 l2 : List Task),
      SortedLe Task.id s.tasks → s.tasks = l1 ++ old :: l2 → old.id = r.id →
      (∀ z ∈ l1, z.id ≠ r.id) → (∀ z ∈ l2, z.id ≠ r.id) →
      (Tasks.add s r).tasks = l1 ++ old :: r :: l2) ∧
    (∀ (s : Notes) (r old : Note) (l1 l2 : List Note),
      SortedLe Note.id s.notes → s.notes = l1 ++ old :: l2 → old.id = r.id →
      (∀ z ∈ l1, z.id ≠ r.id) → (∀ z ∈ l2, z.id ≠ r.id) →
      (Notes.add s r).notes = l1 ++ old :: r :: l2) := by
  refine ⟨?_, ?_, ?_, ?_⟩
  · intro s r
    rw [tasksAdd_def]
    exact listAdd_length Task.id s.tasks r
  · intro s r
    rw [notesAdd_def]
    exact listAdd_length Note.id s.notes r
  · intro s r old l1 l2 hs hsplit hold h1 h2
    rw [tasksAdd_def]
    show listAdd Task.id s.tasks r = l1 ++ old :: r :: l2
    rw [hsplit] at hs ⊢
    exact listAdd_duplicate Task.id r old l1 l2 hs hold h1 h2
  · intro s r old l1 l2 hs hsplit hold h1 h2
    rw [notesAdd_def]
    show listAdd Note.id s.notes r = l1 ++ old :: r :: l2
    rw [hsplit] at hs ⊢
    exact listAdd_duplicate Note.id r old l1 l2 hs hold h1 h2

/-- Witness for C9: adding a second record with identity 1 to a store
already holding one puts the newcomer right after the incumbent. -/
theorem C9_duplicate_add_retains_both_witness :
    SortedLe Task.id [⟨1, 0, 0, none, [], none, none, []⟩] ∧
    (Tasks.add ⟨0, rootBytes, [⟨1, 0, 0, none, [], none, none, []⟩]⟩
        ⟨1, 2, 3, none, [104], none, none, []⟩).tasks =
      [⟨1, 0, 0, none, [], none, none, []⟩, ⟨1, 2, 3, none, [104], none, none, []⟩] ∧
    (Tasks.add ⟨0, rootBytes, [⟨1, 0, 0, none, [], none, none, []⟩]⟩
        ⟨1, 2, 3, none, [104], none, none, []⟩).tasks.length = 1 + 1 :=
  ⟨by decide,
    C9_duplicate_add_retains_both.2.2.1 ⟨0, rootBytes, [⟨1, 0, 0, none, [], none, none, []⟩]⟩
      ⟨1, 2, 3, none, [104], none, none, []⟩ ⟨1, 0, 0, none, [], none, none, []⟩ [] []
      (by decide) rfl rfl (by decide) (by decide),
    C9_duplicate_add_retains_both.1 ⟨0, rootBytes, [⟨1, 0, 0, none, [], none, none, []⟩]⟩
      ⟨1, 2, 3, none, [104], none, none, []⟩⟩

/-- C10: one remove call deletes at most one record -- it either leaves
the store untouched or splits the sequence around a single entry
carrying the identity and drops exactly that entry, the rest surviving
in order; and on a sorted store a present identity (present several
times included) really is removed, exactly once. -/
theorem C10_remove_deletes_at_most_one :
    (∀ (s : Tasks) (i : Nat),
      (Tasks.remove s i = s ∨ ∃ l1 x l2, s.tasks = l1 ++ x :: l2 ∧ x.id = i ∧
        (Tasks.remove s i).tasks = l1 ++ l2) ∧
      (SortedLe Task.id s.tasks → i ∈ s.tasks.map Task.id →
        ∃ l1 x l2, s.tasks = l1 ++ x :: l2 ∧ x.id = i ∧
          (Tasks.remove s i).tasks = l1 ++ l2)) ∧
    (∀ (s : Notes) (i : Nat),
      (Notes.remove s i = s ∨ ∃ l1 x l2, s.notes = l1 ++ x :: l2 ∧ x.id = i ∧
        (Notes.remove s i).notes = l1 ++ l2) ∧
      (SortedLe Note.id s.notes → i ∈ s.notes.map Note.id →
        ∃ l1 x l2, s.notes = l1 ++ x :: l2 ∧ x.id = i ∧
          (Notes.remove s i).notes = l1 ++ l2)) := by
  constructor
  · intro s i
    constructor
    · rcases listRemove_cases Task.id s.tasks i with hcase | ⟨l1, x, l2, hsplit, hkey, hres⟩
      · left
        rw [tasksRemove_def, hcase]
      · right
        exact ⟨l1, x, l2, hsplit, hkey, by rw [tasksRemove_def]; exact hres⟩
    · intro hs hmem
      rcases listRemove_present Task.id s.tasks i hs hmem with ⟨l1, x, l2, hsplit, hkey, hres⟩
      exact ⟨l1, x, l2, hsplit, hkey, by rw [tasksRemove_def]; exact hres⟩
  · intro s i
    constructor
    · rcases listRemove_cases Note.id s.notes i with hcase | ⟨l1, x, l2, hsplit, hkey, hres⟩
      · left
        rw [notesRemove_def, hcase]
      · right
        exact ⟨l1, x, l2, hsplit, hkey, by rw [notesRemove_def]; exact hres⟩
    · intro hs hmem
      rcases listRemove_present Note.id s.notes i hs hmem with ⟨l1, x, l2, hsplit, hkey, hres⟩
      exact ⟨l1, x, l2, hsplit, hkey, by rw [notesRemove_def]; exact hres⟩

/-- Witness for C10 on a store holding THREE records two of which share
identity 2: remove deletes exactly one of them. -/
theorem C10_remove_deletes_at_most_one_witness :
    SortedLe Task.id [⟨1, 0, 0, none, [], none, none, []⟩,
      ⟨2, 0, 0, none, [], none, none, []⟩, ⟨2, 5, 6, none, [104], none, none, []⟩] ∧
    (2 : Nat) ∈ ([⟨1, 0, 0, none, [], none, none, []⟩, ⟨2, 0, 0, none, [], none, none, []⟩,
      ⟨2, 5, 6, none, [104], none, none, []⟩] : List Task).map Task.id ∧
    (∃ l1 x l2, ([⟨1, 0, 0, none, [], none, none, []⟩, ⟨2, 0, 0, none, [], none, none, []⟩,
        ⟨2, 5, 6, none, [104], none, none, []⟩] : List Task) = l1 ++ x :: l2 ∧
      Task.id x = 2 ∧
      (Tasks.remove ⟨0, rootBytes, [⟨1, 0, 0, none, [], none, none, []⟩,
        ⟨2, 0, 0, none, [], none, none, []⟩, ⟨2, 5, 6, none, [104], none, none, []⟩]⟩
        2).tasks = l1 ++ l2) :=
  ⟨by decide, by decide,
    (C10_remove_deletes_at_most_one.1 ⟨0, rootBytes, [⟨1, 0, 0, none, [], none, none, []⟩,
      ⟨2, 0, 0, none, [], none, none, []⟩, ⟨2, 5, 6, none, [104], none, none, []⟩]⟩ 2).2
      (by decide) (by decide)⟩

end Regia
